import Mathlib

/-!
Shallow embedding of the SIL phi-argument optimizations
(lib/SILOptimizer/Transforms/PhiArgumentOptimizations.cpp) together with
the block-argument query API described by include/swift/SIL/SILArgument.h.

Values are identified by natural-number ids.  A function is an ordered
list of basic blocks; each block carries its argument list, its
non-terminator instructions and its terminator.  Branch operands
(the incoming phi operands) are stored in the terminators, and the
predecessor list of a block is derived from the terminators, in block
order.  Machine pointers of the C++ code become ids; the `SmallVector`
worklists and `SmallSet` visited sets of the two passes become lists.

The loops of the source are written with explicit fuel.  Every loop of
the source is bounded (the pair-combination cap 48, the visited-pair cap
16, worklists deduplicated by visited sets), and the fuel supplied by the
wrapper definitions exceeds the corresponding bound, so fuel exhaustion
is unreachable on the inputs the theorems below talk about.

Mutations of the IR additionally append to an event log, so that theorems
can speak about which instructions a pass created and which arguments it
redirected or erased.
-/

namespace PhiOpt

/-- Ownership kind of a value (swift::OwnershipKind). -/
inductive OwnershipKind
  | none
  | owned
  | guaranteed
  | unowned
deriving DecidableEq, Repr

/-- A branch operand: an incoming phi operand.  `ltEnd` is the operand's
`isLifetimeEnding()` flag, modelled from the spec: an operand is a use
edge carrying a boolean lifetime-ending flag. -/
structure Slot where
  val : Nat
  ltEnd : Bool
deriving DecidableEq, Repr

/-- Instruction opcodes, covering the instruction classes that the two
passes inspect (DebugValueInst, StructExtractInst, CopyValueInst,
DestroyValueInst) plus opaque codes for every other single-value
instruction.  `pureOp`/`genericOp` codes keep distinct opcodes distinct. -/
inductive Opcode
  | debugValue
  | structExtract (field : Nat)
  | copyValue
  | destroyValue
  | pureOp (code : Nat)
  | genericOp (code : Nat)
deriving DecidableEq, Repr

/-- The ValueKind tag of an instruction: two instructions have the same
kind iff they are instances of the same instruction class (the field of
a struct_extract is an attribute, not part of the kind). -/
def Opcode.tag : Opcode → Nat
  | .debugValue => 0
  | .structExtract _ => 1
  | .copyValue => 2
  | .destroyValue => 3
  | .pureOp c => 4 + 2 * c
  | .genericOp c => 5 + 2 * c

/-- A single-value instruction.  `memNone` is
`getMemoryBehavior() == MemoryBehavior::None`; `isAlloc` is
`isa<AllocationInst>`. -/
structure Inst where
  id : Nat
  opcode : Opcode
  operands : List Nat
  typ : Nat
  ownership : OwnershipKind
  memNone : Bool
  isAlloc : Bool
deriving DecidableEq, Repr

/-- A block argument record (SILArgument): id, type and ownership kind. -/
structure Arg where
  id : Nat
  typ : Nat
  ownership : OwnershipKind
deriving DecidableEq, Repr

/-- Block terminators.  `br`/`condBr` carry their argument slots
(the incoming phi operands of the destination); every other terminator
is `other` with a plain operand list. -/
inductive Terminator
  | br (dest : Nat) (brArgs : List Slot)
  | condBr (cond : Nat) (tdest : Nat) (targs : List Slot) (fdest : Nat) (fargs : List Slot)
  | other (operands : List Nat)
deriving DecidableEq, Repr

/-- A basic block: id, arguments, non-terminator instructions, terminator. -/
structure Block where
  id : Nat
  args : List Arg
  insts : List Inst
  term : Terminator
deriving DecidableEq, Repr

/-- Log of the mutations a pass performs, used by the theorems to state
which values were copied, redirected, destroyed, erased or replaced. -/
inductive Event
  | createdCopy (newId ofVal : Nat)
  | redirected (oldVal newVal : Nat)
  | insertedDestroy (newId ofVal : Nat)
  | erasedArg (blockId argId : Nat)
  | replacedArg (blockId oldId newId : Nat)
  | erasedInst (instId : Nat)
  | createdExtract (newId ofVal field : Nat)
deriving DecidableEq, Repr

/-- The state of a SIL function: the block list (entry block first),
the `shouldOptimize()` flag, the `hasOwnership()` flag, a fresh-id
counter for created instructions and arguments, and the event log. -/
structure IRState where
  shouldOptimize : Bool
  hasOwnership : Bool
  blocks : List Block
  nextId : Nat
  events : List Event
deriving DecidableEq, Repr

/-! ### Query API (SILArgument.h / SILBasicBlock) -/

def findBlock (st : IRState) (b : Nat) : Option Block :=
  st.blocks.find? (fun blk => blk.id = b)

/-- Does this terminator have `b` among its successors? -/
def Terminator.targets : Terminator → Nat → Bool
  | .br d _, b => d == b
  | .condBr _ td _ fd _, b => td == b || fd == b
  | .other _, _ => false

/-- The branch-argument slots this terminator supplies to block `b`. -/
def Terminator.slotsTo : Terminator → Nat → List Slot
  | .br d a, b => if d = b then a else []
  | .condBr _ td ta fd fa, b => if td = b then ta else if fd = b then fa else []
  | .other _, _ => []

/-- Predecessor blocks of `b`, derived from the terminators, in block
order (getPredecessorBlocks). -/
def predsList (st : IRState) (b : Nat) : List Nat :=
  (st.blocks.filter (fun blk => blk.term.targets b)).map (fun blk => blk.id)

/-- The incoming phi operand for argument index `idx` of block `b` coming
from predecessor `p`. -/
def incomingSlot (st : IRState) (p b idx : Nat) : Option Slot :=
  (findBlock st p).bind (fun pb => (pb.term.slotsTo b)[idx]?)

/-- Id of the entry block (the function's first block). -/
def entryIdOf (st : IRState) : Option Nat :=
  st.blocks.head?.map (fun blk => blk.id)

def Block.findArgIdx (blk : Block) (v : Nat) : Option (Nat × Arg) :=
  blk.args.enum.find? (fun ia => ia.2.id = v)

/-- Locate the block argument with id `v`: parent block id, argument
index, argument record. -/
def findArg (st : IRState) (v : Nat) : Option (Nat × Nat × Arg) :=
  st.blocks.findSome? (fun blk => (blk.findArgIdx v).map (fun ia => (blk.id, ia.1, ia.2)))

/-- Locate the instruction with result id `v`. -/
def findInst (st : IRState) (v : Nat) : Option Inst :=
  st.blocks.findSome? (fun blk => blk.insts.find? (fun i => i.id = v))

/-- The ValueKind of a value: block arguments of the entry block are
SILFunctionArgument, all other block arguments are SILPhiArgument,
instructions carry their opcode tag. -/
inductive VKind
  | phiArgK
  | funcArgK
  | instK (tag : Nat)
  | undefK
deriving DecidableEq, Repr

def kindOf (st : IRState) (v : Nat) : VKind :=
  match findArg st v with
  | some bia => if entryIdOf st = some bia.1 then .funcArgK else .phiArgK
  | none =>
    match findInst st v with
    | some i => .instK i.opcode.tag
    | none => .undefK

def typeOf (st : IRState) (v : Nat) : Nat :=
  match findArg st v with
  | some bia => bia.2.2.typ
  | none =>
    match findInst st v with
    | some i => i.typ
    | none => 0

def ownershipOf (st : IRState) (v : Nat) : OwnershipKind :=
  match findArg st v with
  | some bia => bia.2.2.ownership
  | none =>
    match findInst st v with
    | some i => i.ownership
    | none => .unowned

/-- Modelled from the spec (SILArgument::isPhi has no body under src/):
an argument is a phi iff its parent block is not the entry block and
every predecessor's terminator explicitly supplies this argument's slot
via ordinary branching (br / cond_br). -/
def isPhiAt (st : IRState) (b idx : Nat) : Bool :=
  (entryIdOf st != some b) &&
  (predsList st b).all (fun p =>
    match findBlock st p with
    | some pb => idx < (pb.term.slotsTo b).length
    | none => false)

def isPhi (st : IRState) (v : Nat) : Bool :=
  match findArg st v with
  | some bia => isPhiAt st bia.1 bia.2.1
  | none => false

/-- getIncomingPhiValue: the value supplied by predecessor `p`, or none
if the argument is not a true phi. -/
def valueIncoming (st : IRState) (v p : Nat) : Option Nat :=
  match findArg st v with
  | some bia =>
    if isPhiAt st bia.1 bia.2.1 then (incomingSlot st p bia.1 bia.2.1).map (fun s => s.val)
    else Option.none
  | none => Option.none

/-- getIncomingPhiValues: one incoming value per predecessor, empty when
the argument is not a true phi. -/
def incomingPhiValuesOf (st : IRState) (v : Nat) : List Nat :=
  match findArg st v with
  | some bia =>
    if isPhiAt st bia.1 bia.2.1 then
      (predsList st bia.1).filterMap (fun p => (incomingSlot st p bia.1 bia.2.1).map (fun s => s.val))
    else []
  | none => []

/-! ### RedundantPhiEliminationPass::valuesAreEqual -/

/-- Insert a pair into the visited set and push it on the worklist when
it was not visited before (handled.insert(...).second). -/
def insertPush (h wl : List (Nat × Nat)) (x y : Nat) : List (Nat × Nat) × List (Nat × Nat) :=
  if (x, y) ∈ h then (h, wl) else ((x, y) :: h, (x, y) :: wl)

/-- Push the pair of incoming values for every predecessor; fails when a
predecessor lacks an incoming value on either side. -/
def pushIncomingPairs (st : IRState) (v1 v2 : Nat) :
    List Nat → List (Nat × Nat) → List (Nat × Nat) → Bool × List (Nat × Nat) × List (Nat × Nat)
  | [], h, wl => (true, h, wl)
  | p :: ps, h, wl =>
    match valueIncoming st v1 p, valueIncoming st v2 p with
    | some x, some y =>
      let hw := insertPush h wl x y
      pushIncomingPairs st v1 v2 ps hw.1 hw.2
    | _, _ => (false, h, wl)

/-- Push corresponding operand pairs (the isIdenticalTo operand callback). -/
def pushOperandPairs :
    List Nat → List Nat → List (Nat × Nat) → List (Nat × Nat) → List (Nat × Nat) × List (Nat × Nat)
  | x :: xs, y :: ys, h, wl =>
    let hw := insertPush h wl x y
    pushOperandPairs xs ys hw.1 hw.2
  | _, _, h, wl => (h, wl)

/-- Process one popped pair of distinct values of equal kind: the phi
branch (same block, same type, no Guaranteed ownership, push incoming
pairs) or the instruction branch (no side effects, no allocation,
structurally identical, push operand pairs).  Returns
(continue?, visited set, worklist). -/
def vaePair (st : IRState) (v1 v2 : Nat) (h wl : List (Nat × Nat)) :
    Bool × List (Nat × Nat) × List (Nat × Nat) :=
  if kindOf st v1 ≠ kindOf st v2 then (false, h, wl)
  else
    match findArg st v1, findArg st v2 with
    | some bia1, some bia2 =>
      if kindOf st v1 = VKind.funcArgK then (false, h, wl)
      else if bia1.1 ≠ bia2.1 then (false, h, wl)
      else if bia1.2.2.typ ≠ bia2.2.2.typ then (false, h, wl)
      else if bia1.2.2.ownership = .guaranteed ∨ bia2.2.2.ownership = .guaranteed then
        (false, h, wl)
      else pushIncomingPairs st v1 v2 (predsList st bia1.1) h wl
    | Option.none, Option.none =>
      match findInst st v1, findInst st v2 with
      | some i1, some i2 =>
        if ¬ i1.memNone then (false, h, wl)
        else if i1.isAlloc then (false, h, wl)
        else if i1.opcode = i2.opcode ∧ i1.typ = i2.typ ∧
                i1.operands.length = i2.operands.length then
          let hw := pushOperandPairs i1.operands i2.operands h wl
          (true, hw.1, hw.2)
        else (false, h, wl)
      | _, _ => (false, h, wl)
    | _, _ => (false, h, wl)

/-- The worklist loop of valuesAreEqual, returning the result together
with the final visited set.  The cap check (16) sits at the loop top,
exactly as in the source. -/
def vaeLoop (st : IRState) : Nat → List (Nat × Nat) → List (Nat × Nat) → Bool × List (Nat × Nat)
  | 0, _, h => (false, h)
  | fuel + 1, wl, h =>
    match wl with
    | [] => (true, h)
    | (v1, v2) :: rest =>
      if 16 < h.length then (false, h)
      else if v1 = v2 then vaeLoop st fuel rest h
      else
        let r := vaePair st v1 v2 h rest
        if r.1 then vaeLoop st fuel r.2.2 r.2.1 else (false, r.2.1)

/-- Fuel bound: the loop performs at most one iteration per visited-set
insertion plus a constant, and one iteration inserts at most
(number of blocks + total operand count) pairs before the cap check
fires, so this fuel is never exhausted. -/
def opWeight (st : IRState) : Nat :=
  st.blocks.length + (st.blocks.map (fun blk => (blk.insts.map (fun i => i.operands.length)).sum)).sum

def vaeRun (st : IRState) (v1 v2 : Nat) : Bool × List (Nat × Nat) :=
  vaeLoop st (opWeight st + 40) [(v1, v2)] [(v1, v2)]

/-- RedundantPhiEliminationPass::valuesAreEqual. -/
def valuesAreEqual (st : IRState) (v1 v2 : Nat) : Bool :=
  (vaeRun st v1 v2).1

/-! ### IR mutations -/

def substVal (old new v : Nat) : Nat := if v = old then new else v

def Slot.subst (s : Slot) (old new : Nat) : Slot :=
  { s with val := substVal old new s.val }

def Terminator.substUses : Terminator → Nat → Nat → Terminator
  | .br d a, old, new => .br d (a.map (fun s => s.subst old new))
  | .condBr c td ta fd fa, old, new =>
      .condBr (substVal old new c) td (ta.map (fun s => s.subst old new))
        fd (fa.map (fun s => s.subst old new))
  | .other ops, old, new => .other (ops.map (substVal old new))

def Inst.substUses (i : Inst) (old new : Nat) : Inst :=
  { i with operands := i.operands.map (substVal old new) }

def Block.substUses (blk : Block) (old new : Nat) : Block :=
  { blk with insts := blk.insts.map (fun i => i.substUses old new),
             term := blk.term.substUses old new }

/-- replaceAllUsesWith: rewrite every operand and branch slot. -/
def IRState.rauw (st : IRState) (old new : Nat) : IRState :=
  { st with blocks := st.blocks.map (fun blk => blk.substUses old new),
            events := st.events ++ [Event.redirected old new] }

def IRState.mapBlock (st : IRState) (b : Nat) (f : Block → Block) : IRState :=
  { st with blocks := st.blocks.map (fun blk => if blk.id = b then f blk else blk) }

/-- The copy_value instruction the merge creates. -/
def copyInstOf (st : IRState) (operand : Nat) : Inst :=
  { id := st.nextId, opcode := .copyValue, operands := [operand], typ := typeOf st operand,
    ownership := .owned, memNone := false, isAlloc := false }

/-- Create a copy_value of `operand` at the front of block `b`
(SILBuilderWithScope builder(&block->front())). -/
def IRState.createCopyFront (st : IRState) (b operand : Nat) : IRState × Nat :=
  let st1 := st.mapBlock b (fun blk => { blk with insts := copyInstOf st operand :: blk.insts })
  ({ st1 with nextId := st.nextId + 1,
              events := st1.events ++ [Event.createdCopy st.nextId operand] }, st.nextId)

/-- Append an instruction at the end of block `b`, i.e. immediately
before its terminator. -/
def IRState.appendInst (st : IRState) (b : Nat) (i : Inst) : IRState :=
  st.mapBlock b (fun blk => { blk with insts := blk.insts ++ [i] })

/-- The destroy_value instruction the merge creates. -/
def destroyInstOf (st : IRState) (valId : Nat) : Inst :=
  { id := st.nextId, opcode := .destroyValue, operands := [valId], typ := 0,
    ownership := .none, memNone := false, isAlloc := false }

/-- Insert a destroy_value of `valId` immediately before the terminator
of block `p` (SILBuilderWithScope builder(op->getUser())). -/
def IRState.insertDestroyBefore (st : IRState) (p valId : Nat) : IRState :=
  let st1 := st.appendInst p (destroyInstOf st valId)
  { st1 with nextId := st.nextId + 1,
             events := st1.events ++ [Event.insertedDestroy st.nextId valId] }

def Terminator.dropSlotTo : Terminator → Nat → Nat → Terminator
  | .br d a, b, idx => if d = b then .br d (a.eraseIdx idx) else .br d a
  | .condBr c td ta fd fa, b, idx =>
      .condBr c td (if td = b then ta.eraseIdx idx else ta)
        fd (if fd = b then fa.eraseIdx idx else fa)
  | .other ops, _, _ => .other ops

def getArg (st : IRState) (b i : Nat) : Option Arg :=
  (findBlock st b).bind (fun blk => blk.args[i]?)

def argIdAt (st : IRState) (b idx : Nat) : Option Nat :=
  (getArg st b idx).map (fun a => a.id)

def numArgs (st : IRState) (b : Nat) : Nat :=
  match findBlock st b with
  | some blk => blk.args.length
  | none => 0

/-- Modelled from the spec (erasePhiArgument lives in CFGOptUtils, not
under src/): remove the argument at `idx` from block `b` and delete the
corresponding incoming operand slot in every predecessor terminator;
the erased argument stays dereferenceable, it is only unlinked. -/
def erasePhiArg (st : IRState) (b idx : Nat) : IRState :=
  let victim := match getArg st b idx with | some a => a.id | none => 0
  let st1 :=
    { st with blocks := st.blocks.map (fun (blk : Block) =>
        let blk1 : Block := { blk with term := blk.term.dropSlotTo b idx }
        if blk1.id = b then { blk1 with args := blk1.args.eraseIdx idx } else blk1) }
  { st1 with events := st1.events ++ [Event.erasedArg b victim] }

/-- One step of the destroy-insertion visitor of eraseOwnedPhiArgument:
for one predecessor, insert a destroy of the incoming value when the
incoming phi operand is lifetime ending. -/
def destroyFoldStep (st : IRState) (b idx p : Nat) : IRState :=
  match incomingSlot st p b idx with
  | some s => if s.ltEnd then st.insertDestroyBefore p s.val else st
  | none => st

/-- eraseOwnedPhiArgument: visit the incoming phi operands (when the
argument is a true phi), insert a destroy at every lifetime-ending one,
then erase the argument. -/
def eraseOwnedPhiArg (st : IRState) (b idx : Nat) : IRState :=
  let phiId := match getArg st b idx with | some a => a.id | none => 0
  let st1 :=
    if isPhi st phiId then (predsList st b).foldl (fun s p => destroyFoldStep s b idx p) st
    else st
  erasePhiArg st1 b idx

/-- The per-pair merge of RedundantPhiEliminationPass::optimizeArgs once
valuesAreEqual succeeded (lines 160-196 of the source). -/
def mergeAt (st : IRState) (b i j : Nat) : IRState :=
  match getArg st b i, getArg st b j with
  | some a1, some a2 =>
    if st.hasOwnership then
      if a1.ownership = .owned ∧ a2.ownership = .owned then
        let r := st.createCopyFront b a1.id
        eraseOwnedPhiArg (r.1.rauw a2.id r.2) b j
      else if a1.ownership = .owned ∧ a2.ownership = .none then
        eraseOwnedPhiArg (st.rauw a1.id a2.id) b i
      else if a1.ownership = .none ∧ a2.ownership = .owned then
        eraseOwnedPhiArg (st.rauw a2.id a1.id) b j
      else erasePhiArg (st.rauw a2.id a1.id) b j
    else erasePhiArg (st.rauw a2.id a1.id) b j
  | _, _ => st

/-- The nested pair loop of RedundantPhiEliminationPass::optimizeArgs.
The inner for loop has no increment clause: a non-phi pair falls through
to the next iteration with the same indices, only the combination
counter advances, exactly as in the source.  The counter cap (48) bounds
the number of inner iterations. -/
def oaLoop (b : Nat) : Nat → IRState → Nat → Nat → Nat → Bool → IRState × Bool
  | 0, st, _, _, _, changed => (st, changed)
  | fuel + 1, st, i, j, combos, changed =>
    if i < numArgs st b then
      if j < numArgs st b then
        if 48 < combos + 1 then (st, changed)
        else
          match getArg st b i, getArg st b j with
          | some a1, some a2 =>
            if ¬ (isPhi st a1.id ∧ isPhi st a2.id) then
              oaLoop b fuel st i j (combos + 1) changed
            else if valuesAreEqual st a1.id a2.id then
              oaLoop b fuel (mergeAt st b i j) i j (combos + 1) true
            else oaLoop b fuel st i (j + 1) (combos + 1) changed
          | _, _ => oaLoop b fuel st i (j + 1) (combos + 1) changed
      else oaLoop b fuel st (i + 1) (i + 2) combos changed
    else (st, changed)

/-- RedundantPhiEliminationPass::optimizeArgs on one block. -/
def optimizeArgs (st : IRState) (b : Nat) : IRState × Bool :=
  oaLoop b (numArgs st b + 60) st 0 1 0 false

/-- RedundantPhiEliminationPass::run: skip functions with
shouldOptimize() false, otherwise fold optimizeArgs over the blocks in
order; the returned flag is the changed flag, which drives
invalidateAnalysis. -/
def runRedundantPhiElimination (st : IRState) : IRState × Bool :=
  if st.shouldOptimize then
    (st.blocks.map (fun blk => blk.id)).foldl
      (fun acc bId =>
        let r := optimizeArgs acc.1 bId
        (r.1, acc.2 || r.2))
      (st, false)
  else (st, false)

/-! ### hasOnlyNoneOwnershipIncomingValues (debug-build checker) -/

def insertUniq (wl : List Nat) (v : Nat) : List Nat :=
  if v ∈ wl then wl else wl ++ [v]

/-- The per-iteration body: check the incoming values of the INITIAL phi
(the loop body of the source reads `phi`, not `worklist[idx]`), skipping
None-ownership values, collecting incoming phis, failing on anything
else. -/
def honCheckList (st : IRState) : List Nat → List Nat → Option (List Nat)
  | [], wl => some wl
  | v :: rest, wl =>
    if ownershipOf st v = .none then honCheckList st rest wl
    else if kindOf st v = VKind.phiArgK && isPhi st v then honCheckList st rest (insertUniq wl v)
    else Option.none

def honLoop (st : IRState) (phi : Nat) : Nat → List Nat → Nat → Bool
  | 0, _, _ => true
  | fuel + 1, wl, idx =>
    if idx < wl.length then
      match honCheckList st (incomingPhiValuesOf st phi) wl with
      | some wl1 => honLoop st phi fuel wl1 (idx + 1)
      | none => false
    else true

/-- The debug-build checker hasOnlyNoneOwnershipIncomingValues. -/
def hasOnlyNoneOwnershipIncomingValues (st : IRState) (phi : Nat) : Bool :=
  honLoop st phi ((incomingPhiValuesOf st phi).length + 2) [phi] 0

/-! ### PhiExpansionPass -/

/-- A use of a value: as an instruction operand (the using instruction is
carried), as a branch-argument slot (destination block and slot index
carried: getArgForOperand), as a cond_br condition, or as an operand of
some other terminator. -/
inductive UseSite
  | inInst (i : Inst)
  | inBrSlot (dest idx : Nat)
  | inCond
  | inOther
deriving DecidableEq, Repr

def Terminator.usesOfVal : Terminator → Nat → List UseSite
  | .br d a, v =>
    a.enum.filterMap (fun ks => if ks.2.val = v then some (UseSite.inBrSlot d ks.1) else Option.none)
  | .condBr c td ta fd fa, v =>
    (if c = v then [UseSite.inCond] else []) ++
    ta.enum.filterMap (fun ks => if ks.2.val = v then some (UseSite.inBrSlot td ks.1) else Option.none) ++
    fa.enum.filterMap (fun ks => if ks.2.val = v then some (UseSite.inBrSlot fd ks.1) else Option.none)
  | .other ops, v => (ops.filter (fun x => x = v)).map (fun _ => UseSite.inOther)

def Block.usesOfVal (blk : Block) (v : Nat) : List UseSite :=
  (blk.insts.map (fun i => (i.operands.filter (fun x => x = v)).map (fun _ => UseSite.inInst i))).flatten
    ++ blk.term.usesOfVal v

/-- getUses of a value, enumerated in block order. -/
def usesOf (st : IRState) (v : Nat) : List UseSite :=
  (st.blocks.map (fun blk => blk.usesOfVal v)).flatten

/-- Process one use during phi-expansion discovery.  The accumulator is
(collected phi arguments, optional (field, field type)). -/
def processUse (st : IRState) (acc : List Nat × Option (Nat × Nat)) (u : UseSite) :
    Option (List Nat × Option (Nat × Nat)) :=
  match u with
  | .inInst i =>
    match i.opcode with
    | .debugValue => some acc
    | .structExtract f =>
      match acc.2 with
      | some ft => if f ≠ ft.1 then Option.none else some (acc.1, some (f, i.typ))
      | none => some (acc.1, some (f, i.typ))
    | _ => Option.none
  | .inBrSlot dest idx =>
    match argIdAt st dest idx with
    | some d => if d ∈ acc.1 then some acc else some (acc.1 ++ [d], acc.2)
    | none => Option.none
  | .inCond => Option.none
  | .inOther => Option.none

def processUses (st : IRState) :
    List UseSite → List Nat × Option (Nat × Nat) → Option (List Nat × Option (Nat × Nat))
  | [], acc => some acc
  | u :: us, acc =>
    match processUse st acc u with
    | some acc1 => processUses st us acc1
    | none => Option.none

/-- Discovery loop of PhiExpansionPass::optimizeArg: breadth-first over
the collected phi arguments, failing on a field mismatch or an
unexpected use, and failing at the end when no field was found. -/
def discoverLoop (st : IRState) :
    Nat → List Nat → Nat → Option (Nat × Nat) → Option (List Nat × Nat × Nat)
  | 0, _, _, _ => Option.none
  | fuel + 1, collected, idx, fld =>
    if h : idx < collected.length then
      match processUses st (usesOf st (collected.get ⟨idx, h⟩)) (collected, fld) with
      | some acc => discoverLoop st fuel acc.1 (idx + 1) acc.2
      | none => Option.none
    else
      match fld with
      | some ft => some (collected, ft.1, ft.2)
      | none => Option.none

def totalArgCount (st : IRState) : Nat :=
  (st.blocks.map (fun blk => blk.args.length)).sum

/-- The first (discovery) step of PhiExpansionPass::optimizeArg:
the collected component, the required field and the field type. -/
def discover (st : IRState) (root : Nat) : Option (List Nat × Nat × Nat) :=
  discoverLoop st (totalArgCount st + 2) [root] 0 Option.none

def instsUsingWith (st : IRState) (v : Nat) (pred : Opcode → Bool) : List Inst :=
  (st.blocks.map (fun blk => blk.insts.filter (fun i => pred i.opcode && i.operands.contains v))).flatten

def eraseInstById (st : IRState) (iid : Nat) : IRState :=
  { st with
    blocks := st.blocks.map (fun blk =>
      { blk with insts := blk.insts.filter (fun i => i.id != iid) })
    events := st.events ++ [Event.erasedInst iid] }

/-- replacePhiArgumentAndReplaceAllUses: install a fresh argument of the
new type (same index, same ownership) and redirect all uses of the old
argument to it. -/
def replacePhiArg (st : IRState) (b idx newType : Nat) (own : OwnershipKind) : IRState × Nat :=
  let newId := st.nextId
  let oldId := match getArg st b idx with | some a => a.id | none => 0
  let st1 := st.mapBlock b (fun blk =>
    { blk with args := blk.args.set idx { id := newId, typ := newType, ownership := own } })
  let st2 := { st1 with nextId := newId + 1,
                        events := st1.events ++ [Event.replacedArg b oldId newId] }
  (st2.rauw oldId newId, newId)

def setSlotVal : List Slot → Nat → Nat → List Slot
  | [], _, _ => []
  | s :: rest, 0, v => { s with val := v } :: rest
  | s :: rest, idx + 1, v => s :: setSlotVal rest idx v

def Terminator.setSlotTo : Terminator → Nat → Nat → Nat → Terminator
  | .br d a, b, idx, v => if d = b then .br d (setSlotVal a idx v) else .br d a
  | .condBr c td ta fd fa, b, idx, v =>
      .condBr c td (if td = b then setSlotVal ta idx v else ta)
        fd (if fd = b then setSlotVal fa idx v else fa)
  | .other ops, _, _, _ => .other ops

/-- One predecessor edge of the push-extraction loop (lines 449-465 of
the source): when the supplied value's type is not already the field
type, create a struct_extract of the required field immediately before
the supplying terminator and rewire the operand to it. -/
def pushedExtractInst (n f newType v : Nat) : Inst :=
  { id := n, opcode := .structExtract f, operands := [v], typ := newType,
    ownership := .none, memNone := true, isAlloc := false }

def extractInstOf (st : IRState) (f newType v : Nat) : Inst :=
  pushedExtractInst st.nextId f newType v

def extractFoldStep (st : IRState) (b idx f newType p : Nat) : IRState :=
  match incomingSlot st p b idx with
  | some s =>
    if typeOf st s.val = newType then st
    else
      let st1 := st.appendInst p (extractInstOf st f newType s.val)
      let st2 := st1.mapBlock p (fun blk => { blk with term := blk.term.setSlotTo b idx st.nextId })
      { st2 with nextId := st.nextId + 1,
                 events := st2.events ++ [Event.createdExtract st.nextId s.val f] }
  | none => st

/-- Move the struct_extract to the predecessors: process every incoming
phi operand of the (replaced) argument at index `idx` of block `b`. -/
def pushExtractsToPreds (st : IRState) (b idx f newType : Nat) : IRState :=
  (predsList st b).foldl (fun s p => extractFoldStep s b idx f newType p) st

/-- The second (rewrite) step of PhiExpansionPass::optimizeArg for one
argument of the discovered component. -/
def expandOneArg (st : IRState) (f newType argId : Nat) : IRState :=
  match findArg st argId with
  | some bia =>
    let b := bia.1
    let idx := bia.2.1
    let r := replacePhiArg st b idx newType bia.2.2.ownership
    let st1 := r.1
    let newId := r.2
    let dvs := instsUsingWith st1 newId (fun op => op == Opcode.debugValue)
    let st2 := dvs.foldl (fun s i => eraseInstById s i.id) st1
    let ses := instsUsingWith st1 newId (fun op =>
      match op with | .structExtract _ => true | _ => false)
    let st3 := ses.foldl (fun s i => eraseInstById (s.rauw i.id (i.operands.headD 0)) i.id) st2
    pushExtractsToPreds st3 b idx f newType
  | none => st

/-- PhiExpansionPass::optimizeArg. -/
def optimizeArg (st : IRState) (root : Nat) : IRState × Bool :=
  match discover st root with
  | some cft => (cft.1.foldl (fun s a => expandOneArg s cft.2.1 cft.2.2 a) st, true)
  | none => (st, false)

def peFuel (st : IRState) : Nat :=
  totalArgCount st + (st.blocks.map (fun blk => blk.insts.length)).sum + 8

/-- The try-multiple-times loop on one argument (nested structs). -/
def peWhile (b idx : Nat) : Nat → IRState → IRState × Bool
  | 0, st => (st, false)
  | fuel + 1, st =>
    match argIdAt st b idx with
    | some a =>
      let r := optimizeArg st a
      if r.2 then
        let r2 := peWhile b idx fuel r.1
        (r2.1, true)
      else (st, false)
    | none => (st, false)

def peProcessArg (st : IRState) (b idx : Nat) : IRState × Bool :=
  match argIdAt st b idx with
  | some a => if isPhi st a then peWhile b idx (peFuel st) st else (st, false)
  | none => (st, false)

def peArgsLoop (b : Nat) : Nat → IRState → Nat → Bool → IRState × Bool
  | 0, st, _, changed => (st, changed)
  | k + 1, st, idx, changed =>
    let r := peProcessArg st b idx
    peArgsLoop b k r.1 (idx + 1) (changed || r.2)

/-- PhiExpansionPass::run. -/
def runPhiExpansion (st : IRState) : IRState × Bool :=
  if st.shouldOptimize then
    (st.blocks.map (fun blk => blk.id)).foldl
      (fun acc bId =>
        let r := peArgsLoop bId (numArgs acc.1 bId) acc.1 0 false
        (r.1, acc.2 || r.2))
      (st, false)
  else (st, false)

/-! ### Well-formedness of ids -/

def allArgIds (st : IRState) : List Nat :=
  (st.blocks.map (fun blk => blk.args.map (fun a => a.id))).flatten

def allInstIds (st : IRState) : List Nat :=
  (st.blocks.map (fun blk => blk.insts.map (fun i => i.id))).flatten

def allDefIds (st : IRState) : List Nat :=
  allArgIds st ++ allInstIds st

def Terminator.refIds : Terminator → List Nat
  | .br _ a => a.map (fun s => s.val)
  | .condBr c _ ta _ fa => c :: (ta.map (fun s => s.val) ++ fa.map (fun s => s.val))
  | .other ops => ops

def allRefIds (st : IRState) : List Nat :=
  (st.blocks.map (fun blk => (blk.insts.map (fun i => i.operands)).flatten ++ blk.term.refIds)).flatten

/-- Well-formed ids: definitions are unique, block ids are unique, and
every defined or referenced id is below the fresh-id counter. -/
def wfIds (st : IRState) : Prop :=
  (allDefIds st).Nodup ∧ (st.blocks.map (fun blk => blk.id)).Nodup ∧
  (∀ v ∈ allDefIds st, v < st.nextId) ∧ (∀ v ∈ allRefIds st, v < st.nextId)

instance (st : IRState) : Decidable (wfIds st) := by
  unfold wfIds
  infer_instance

/-- Does an event redirect the uses of argument `v`, erase it or replace
it (as opposed to merely mentioning it as an operand)? -/
def eventTouchesArg : Event → Nat → Bool
  | .redirected old _, v => old == v
  | .erasedArg _ a, v => a == v
  | .replacedArg _ old _, v => old == v
  | _, _ => false

def lookupArg (st : IRState) (v : Nat) : Option Arg :=
  (findArg st v).map (fun bia => bia.2.2)

/-- A direct incoming value is acceptable to the debug checker when it
has None ownership or is itself a phi argument. -/
def noneOrPhi (st : IRState) (v : Nat) : Bool :=
  (ownershipOf st v == OwnershipKind.none) ||
    (kindOf st v == VKind.phiArgK && isPhi st v)

/-- The destroy events that eraseOwnedPhiArgument emits for the argument
at index `idx` of block `b`, expressed over the pre-merge state: one
destroy per lifetime-ending incoming phi operand, of the incoming value
with `old` replaced by `new` (the merge redirects uses first), with
sequential fresh ids starting at `n`. -/
def destroyEvsFor (st : IRState) (b idx old new : Nat) : List Nat → Nat → List Event
  | [], _ => []
  | p :: ps, n =>
    match incomingSlot st p b idx with
    | some s =>
      if s.ltEnd then
        Event.insertedDestroy n (substVal old new s.val) :: destroyEvsFor st b idx old new ps (n + 1)
      else destroyEvsFor st b idx old new ps n
    | none => destroyEvsFor st b idx old new ps n

/-- The same destroy events read directly off a state (no substitution):
the form in which the destroy-insertion fold naturally produces them. -/
def destroyEvsPlain (st : IRState) (b idx : Nat) : List Nat → Nat → List Event
  | [], _ => []
  | p :: ps, n =>
    match incomingSlot st p b idx with
    | some s =>
      if s.ltEnd then
        Event.insertedDestroy n s.val :: destroyEvsPlain st b idx ps (n + 1)
      else destroyEvsPlain st b idx ps n
    | none => destroyEvsPlain st b idx ps n

/-- The struct_extract creation events that pushing the extraction to
the predecessors emits, expressed over the pre-push state: one extract
per predecessor edge whose incoming value does not already have the
field type, with sequential fresh ids starting at `n`. -/
def extractEvsFor (st : IRState) (b idx f newType : Nat) : List Nat → Nat → List Event
  | [], _ => []
  | p :: ps, n =>
    match incomingSlot st p b idx with
    | some s =>
      if typeOf st s.val = newType then extractEvsFor st b idx f newType ps n
      else Event.createdExtract n s.val f :: extractEvsFor st b idx f newType ps (n + 1)
    | none => extractEvsFor st b idx f newType ps n

/-- Destinations reachable from one phi argument in one step of
phi-expansion discovery: for every use that is a branch-argument slot,
the destination argument. -/
def branchDests (st : IRState) (a : Nat) : List Nat :=
  (usesOf st a).filterMap (fun u =>
    match u with
    | .inBrSlot dest idx => argIdAt st dest idx
    | _ => Option.none)

/-- The connected phi component of `root`: reflexive-transitive closure
of the branch-destination relation (the set discovery is meant to
collect). -/
inductive InComponent (st : IRState) (root : Nat) : Nat → Prop
  | base : InComponent st root root
  | step {a d : Nat} : InComponent st root a → d ∈ branchDests st a → InComponent st root d

/-- Value `a` has a struct_extract use of field `f`. -/
def hasExtractUse (st : IRState) (a f : Nat) : Prop :=
  ∃ i : Inst, UseSite.inInst i ∈ usesOf st a ∧ i.opcode = Opcode.structExtract f

/-- Specification-side description of one pass of the debug checker's
inner loop: collect the non-None incoming phis into the worklist. -/
def addGood (st : IRState) (vals wl : List Nat) : List Nat :=
  vals.foldl (fun w v => if ownershipOf st v = .none then w else insertUniq w v) wl

/-! ### Concrete example states used by witnesses and counterexamples -/

/-- A pure instruction with no operands. -/
def leafInst (id typ : Nat) : Inst :=
  { id := id, opcode := .pureOp 7, operands := [], typ := typ,
    ownership := .none, memNone := true, isAlloc := false }

/-- A minimal function: one empty block. -/
def exTrivial : IRState :=
  { shouldOptimize := true, hasOwnership := false, nextId := 10, events := []
    blocks := [{ id := 0, args := [], insts := [], term := .other [] }] }

/-- A function with shouldOptimize() false. -/
def exNoOpt : IRState :=
  { shouldOptimize := false, hasOwnership := true, nextId := 10, events := []
    blocks := [{ id := 0, args := [], insts := [leafInst 5 0], term := .other [] }] }

/-- Two structurally identical Guaranteed phi arguments. -/
def exGuaranteedPair : IRState :=
  { shouldOptimize := true, hasOwnership := true, nextId := 200, events := []
    blocks :=
      [ { id := 0, args := [], insts := [leafInst 100 0],
          term := .br 1 [⟨100, false⟩, ⟨100, false⟩] },
        { id := 1, args := [⟨10, 0, .guaranteed⟩, ⟨11, 0, .guaranteed⟩], insts := [],
          term := .other [] } ] }

/-- A Guaranteed phi argument alongside two structurally equal
None-ownership phi arguments in the same block. -/
def exGuardedTriple : IRState :=
  { shouldOptimize := true, hasOwnership := true, nextId := 300, events := []
    blocks :=
      [ { id := 0, args := [], insts := [leafInst 100 0, leafInst 101 1],
          term := .br 1 [⟨100, false⟩, ⟨101, false⟩, ⟨101, false⟩] },
        { id := 1, args := [⟨10, 0, .guaranteed⟩, ⟨11, 1, .none⟩, ⟨12, 1, .none⟩],
          insts := [], term := .other [] } ] }

/-- Two equal Owned phi arguments fed by the same None-ownership value;
the second incoming operand is lifetime ending. -/
def exOwnedPair : IRState :=
  { shouldOptimize := true, hasOwnership := true, nextId := 20, events := []
    blocks :=
      [ { id := 0, args := [], insts := [leafInst 15 0],
          term := .br 1 [⟨15, false⟩, ⟨15, true⟩] },
        { id := 1, args := [⟨10, 0, .owned⟩, ⟨11, 0, .owned⟩], insts := [],
          term := .other [] } ] }

/-- Two equal Owned phi arguments whose shared incoming value is itself
Owned (an Owned function argument passed to both slots). -/
def exOwnedIncoming : IRState :=
  { shouldOptimize := true, hasOwnership := true, nextId := 50, events := []
    blocks :=
      [ { id := 0, args := [⟨10, 0, .owned⟩], insts := [],
          term := .br 1 [⟨10, true⟩, ⟨10, true⟩] },
        { id := 1, args := [⟨20, 0, .owned⟩, ⟨21, 0, .owned⟩], insts := [],
          term := .other [] } ] }

/-- A phi argument used by two struct_extracts of different fields. -/
def exMismatch : IRState :=
  { shouldOptimize := true, hasOwnership := false, nextId := 200, events := []
    blocks :=
      [ { id := 0, args := [], insts := [leafInst 100 5],
          term := .br 1 [⟨100, false⟩] },
        { id := 1, args := [⟨10, 5, .none⟩],
          insts := [{ id := 30, opcode := .structExtract 1, operands := [10], typ := 6,
                      ownership := .none, memNone := true, isAlloc := false },
                    { id := 31, opcode := .structExtract 2, operands := [10], typ := 7,
                      ownership := .none, memNone := true, isAlloc := false }],
          term := .other [] } ] }

/-- A struct phi with two predecessors: one supplies the aggregate type 5,
the other already supplies the field type 9; its only use extracts
field 3. -/
def exSingleField : IRState :=
  { shouldOptimize := true, hasOwnership := false, nextId := 200, events := []
    blocks :=
      [ { id := 0, args := [],
          insts := [{ id := 100, opcode := .pureOp 1, operands := [], typ := 5,
                      ownership := .none, memNone := true, isAlloc := false }],
          term := .br 2 [⟨100, false⟩] },
        { id := 1, args := [],
          insts := [{ id := 110, opcode := .pureOp 2, operands := [], typ := 9,
                      ownership := .none, memNone := true, isAlloc := false }],
          term := .br 2 [⟨110, false⟩] },
        { id := 2, args := [⟨10, 5, .none⟩],
          insts := [{ id := 30, opcode := .structExtract 3, operands := [10], typ := 9,
                      ownership := .none, memNone := true, isAlloc := false }],
          term := .other [] } ] }

/-- A chain of 14 identical unary pure instructions starting at value
`base`, with ids `start`, `start`+1, ... -/
def chainOf (start base : Nat) : List Inst :=
  (List.range 14).map (fun k =>
    { id := start + k, opcode := .pureOp 5, operands := [if k = 0 then base else start + k - 1],
      typ := 0, ownership := .none, memNone := true, isAlloc := false })

/-- The idempotence counterexample: block 2 holds an equal pair (p, q)
whose equality proof uses exactly 16 visited pairs; block 1, processed
first, holds a pair (c, d) fed by (q, p), whose equality proof would
need 18 visited pairs and is cut off by the cap.  The first run merges
(p, q); the incoming values of (c, d) then coincide, so the second run
merges (c, d). -/
def exCapChain : IRState :=
  { shouldOptimize := true, hasOwnership := false, nextId := 200, events := []
    blocks :=
      [ { id := 0, args := [],
          insts := leafInst 100 0 :: (chainOf 101 100 ++ chainOf 121 100),
          term := .br 2 [⟨114, false⟩, ⟨134, false⟩] },
        { id := 1, args := [⟨140, 0, .none⟩, ⟨141, 0, .none⟩], insts := [], term := .other [] },
        { id := 2, args := [⟨150, 0, .none⟩, ⟨151, 0, .none⟩], insts := [],
          term := .br 1 [⟨151, false⟩, ⟨150, false⟩] } ] }

/-! ### Helper definitions for the verification development -/

/-- The per-block rewrite that erasePhiArgument performs. -/
def eraseBlockFn (b idx : Nat) (blk : Block) : Block :=
  let blk1 : Block := { blk with term := blk.term.dropSlotTo b idx }
  if blk1.id = b then { blk1 with args := blk1.args.eraseIdx idx } else blk1

/-- The per-block rewrite that mapBlock performs. -/
def mapBlockFn (b : Nat) (f : Block → Block) (blk : Block) : Block :=
  if blk.id = b then f blk else blk

/-- The argument lists of all blocks, as one observation. -/
def argsAt (st : IRState) (q : Nat) : Option (List Arg) :=
  (findBlock st q).map (fun blk => blk.args)

/-- Invariant carried through the redundant-phi pass for claim C1: block
`b` still holds exactly the argument pair [A1, A2], the block skeleton
is stable, and no event appended so far redirects, erases or replaces
either argument of the pair. -/
structure PairInv (st0 : IRState) (b : Nat) (A1 A2 : Arg) (st : IRState) : Prop where
  nodup : (allArgIds st).Nodup
  blkids : st.blocks.map (fun blk => blk.id) = st0.blocks.map (fun blk => blk.id)
  entry : entryIdOf st = entryIdOf st0
  argsPair : ∃ blk, findBlock st b = some blk ∧ blk.args = [A1, A2]
  evs : ∃ tail, st.events = st0.events ++ tail ∧
    ∀ e ∈ tail, eventTouchesArg e A1.id = false ∧ eventTouchesArg e A2.id = false

/-- All value ids referenced by one block. -/
def blockRefIds (blk : Block) : List Nat :=
  (blk.insts.map (fun i => i.operands)).flatten ++ blk.term.refIds

/-! ### Basic unfolding lemmas for the fueled loops -/

theorem vaeLoop_succ_nil (st : IRState) (n : Nat) (h : List (Nat × Nat)) :
    vaeLoop st (n + 1) [] h = (true, h) := rfl

theorem vaeLoop_succ_cons (st : IRState) (n : Nat) (v1 v2 : Nat) (rest h : List (Nat × Nat)) :
    vaeLoop st (n + 1) ((v1, v2) :: rest) h =
      if 16 < h.length then (false, h)
      else if v1 = v2 then vaeLoop st n rest h
      else
        let r := vaePair st v1 v2 h rest
        if r.1 then vaeLoop st n r.2.2 r.2.1 else (false, r.2.1) := rfl

theorem vaeRun_eq (st : IRState) (v1 v2 : Nat) :
    vaeRun st v1 v2 = vaeLoop st (opWeight st + 39 + 1) [(v1, v2)] [(v1, v2)] := rfl

/-! ### C10: reflexivity of valuesAreEqual -/

/-- C10: valuesAreEqual is reflexive: for every value v (of any kind, any
ownership, including Guaranteed phis, allocation instructions, and
instructions with side effects), valuesAreEqual(v, v) returns true: the
initial pair is popped, hits the identity shortcut, and the worklist is
exhausted. -/
theorem valuesAreEqual_reflexive (st : IRState) (v : Nat) :
    valuesAreEqual st v v = true := by
  unfold valuesAreEqual
  rw [vaeRun_eq, vaeLoop_succ_cons]
  have h39 : opWeight st + 39 = opWeight st + 38 + 1 := rfl
  simp [h39, vaeLoop_succ_nil]

/-! ### C6: the visited-pair cap is conservative -/

theorem insertPush_sum (h wl : List (Nat × Nat)) (x y : Nat) :
    (insertPush h wl x y).1.length + wl.length = h.length + (insertPush h wl x y).2.length := by
  unfold insertPush
  split
  · rfl
  · simp [Nat.add_comm, Nat.add_left_comm]

theorem pushIncomingPairs_cons_some (st : IRState) (v1 v2 p : Nat) (ps : List Nat)
    (h wl : List (Nat × Nat)) (x y : Nat)
    (hx : valueIncoming st v1 p = some x) (hy : valueIncoming st v2 p = some y) :
    pushIncomingPairs st v1 v2 (p :: ps) h wl =
      pushIncomingPairs st v1 v2 ps (insertPush h wl x y).1 (insertPush h wl x y).2 := by
  conv_lhs => rw [pushIncomingPairs]
  rw [hx, hy]

theorem pushIncomingPairs_sum (st : IRState) (v1 v2 : Nat) :
    ∀ (ps : List Nat) (h wl : List (Nat × Nat)),
      (pushIncomingPairs st v1 v2 ps h wl).2.1.length + wl.length =
        h.length + (pushIncomingPairs st v1 v2 ps h wl).2.2.length := by
  intro ps
  induction ps with
  | nil => intro h wl; rfl
  | cons p ps ih =>
    intro h wl
    match hx : valueIncoming st v1 p with
    | Option.none =>
      unfold pushIncomingPairs
      rw [hx]
    | some x =>
      match hy : valueIncoming st v2 p with
      | Option.none =>
        unfold pushIncomingPairs
        rw [hx, hy]
      | some y =>
        rw [pushIncomingPairs_cons_some st v1 v2 p ps h wl x y hx hy]
        have hins := insertPush_sum h wl x y
        have hrec := ih (insertPush h wl x y).1 (insertPush h wl x y).2
        omega

theorem pushOperandPairs_cons (x y : Nat) (xs ys : List Nat) (h wl : List (Nat × Nat)) :
    pushOperandPairs (x :: xs) (y :: ys) h wl =
      pushOperandPairs xs ys (insertPush h wl x y).1 (insertPush h wl x y).2 := rfl

theorem pushOperandPairs_sum :
    ∀ (xs ys : List Nat) (h wl : List (Nat × Nat)),
      (pushOperandPairs xs ys h wl).1.length + wl.length =
        h.length + (pushOperandPairs xs ys h wl).2.length := by
  intro xs
  induction xs with
  | nil => intro ys h wl; cases ys <;> rfl
  | cons x xs ih =>
    intro ys h wl
    cases ys with
    | nil => rfl
    | cons y ys =>
      rw [pushOperandPairs_cons]
      have hins := insertPush_sum h wl x y
      have hrec := ih ys (insertPush h wl x y).1 (insertPush h wl x y).2
      omega

theorem vaePair_sum (st : IRState) (v1 v2 : Nat) (h wl : List (Nat × Nat)) :
    (vaePair st v1 v2 h wl).2.1.length + wl.length =
      h.length + (vaePair st v1 v2 h wl).2.2.length := by
  unfold vaePair
  split
  · rfl
  · split
    · split
      · rfl
      · split
        · rfl
        · split
          · rfl
          · split
            · rfl
            · exact pushIncomingPairs_sum st v1 v2 _ h wl
    · split
      · split
        · rfl
        · split
          · rfl
          · split
            · exact pushOperandPairs_sum _ _ h wl
            · rfl
      · rfl
    · rfl

theorem vaeLoop_cap (st : IRState) :
    ∀ (fuel : Nat) (wl h : List (Nat × Nat)),
      h.length ≤ 16 + wl.length → (vaeLoop st fuel wl h).1 = true →
      (vaeLoop st fuel wl h).2.length ≤ 16 := by
  intro fuel
  induction fuel with
  | zero =>
    intro wl h _ hres
    simp [vaeLoop] at hres
  | succ n ih =>
    intro wl h hinv hres
    match wl with
    | [] =>
      rw [vaeLoop_succ_nil] at hres ⊢
      simpa using hinv
    | (v1, v2) :: rest =>
      rw [vaeLoop_succ_cons] at hres ⊢
      by_cases hcap : 16 < h.length
      · simp [hcap] at hres
      · by_cases hid : v1 = v2
        · simp only [if_neg hcap, if_pos hid] at hres ⊢
          exact ih rest h (by omega) hres
        · simp only [if_neg hcap, if_neg hid] at hres ⊢
          by_cases hok : (vaePair st v1 v2 h rest).1 = true
          · simp only [hok, if_true] at hres ⊢
            have hsum := vaePair_sum st v1 v2 h rest
            have hlen : (vaePair st v1 v2 h rest).2.1.length ≤
                16 + (vaePair st v1 v2 h rest).2.2.length := by
              simp only [List.length_cons] at hinv
              omega
            exact ih _ _ hlen hres
          · simp only [Bool.not_eq_true] at hok
            simp [hok] at hres

/-- C6: whenever the visited-pairs set of valuesAreEqual exceeds the
fixed cap of 16 entries the check answers "not equal", so a true answer
implies the cap was never exceeded: the visited set of a successful run
has at most 16 entries (equivalently, exceeding the cap can only produce
a conservative false negative, never a report of equality for a pair the
check did not finish). -/
theorem valuesAreEqual_cap_conservative (st : IRState) (v1 v2 : Nat)
    (htrue : (vaeRun st v1 v2).1 = true) :
    (vaeRun st v1 v2).2.length ≤ 16 := by
  have hinit : ([(v1, v2)] : List (Nat × Nat)).length ≤ 16 + ([(v1, v2)] : List (Nat × Nat)).length := by
    simp
  exact vaeLoop_cap st (opWeight st + 40) [(v1, v2)] [(v1, v2)] hinit htrue

/-- Witness for C6 at a concrete input: the trivial reflexive check
succeeds and its visited set is within the cap. -/
theorem valuesAreEqual_cap_conservative_witness :
    (vaeRun exTrivial 5 5).1 = true ∧ (vaeRun exTrivial 5 5).2.length ≤ 16 :=
  ⟨by decide, valuesAreEqual_cap_conservative exTrivial 5 5 (by decide)⟩

/-! ### C8: shouldOptimize() false means both passes are no-ops -/

/-- C8: for every function for which shouldOptimize() is false, both pass
entry points return the state unchanged and report no change (so the
driver invalidates no cached analysis). -/
theorem shouldOptimize_false_both_noop (st : IRState) (h : st.shouldOptimize = false) :
    runRedundantPhiElimination st = (st, false) ∧ runPhiExpansion st = (st, false) := by
  unfold runRedundantPhiElimination runPhiExpansion
  rw [h]
  simp

/-- Witness for C8 at a concrete function with shouldOptimize() false. -/
theorem shouldOptimize_false_both_noop_witness :
    exNoOpt.shouldOptimize = false ∧
      runRedundantPhiElimination exNoOpt = (exNoOpt, false) ∧
      runPhiExpansion exNoOpt = (exNoOpt, false) :=
  ⟨by decide, shouldOptimize_false_both_noop exNoOpt (by decide)⟩

/-! ### C9: the debug checker only inspects direct incoming values -/

theorem insertUniq_mem_self (wl : List Nat) (v : Nat) : v ∈ insertUniq wl v := by
  unfold insertUniq
  split
  · assumption
  · simp

theorem insertUniq_mono (wl : List Nat) (v w : Nat) (h : w ∈ wl) : w ∈ insertUniq wl v := by
  unfold insertUniq
  split
  · assumption
  · simp [h]

theorem insertUniq_of_mem (wl : List Nat) (v : Nat) (h : v ∈ wl) : insertUniq wl v = wl := by
  unfold insertUniq
  simp [h]

theorem addGood_cons (st : IRState) (v : Nat) (vals wl : List Nat) :
    addGood st (v :: vals) wl =
      addGood st vals (if ownershipOf st v = .none then wl else insertUniq wl v) := rfl

theorem addGood_mono (st : IRState) :
    ∀ (vals wl : List Nat) (w : Nat), w ∈ wl → w ∈ addGood st vals wl := by
  intro vals
  induction vals with
  | nil => intro wl w h; exact h
  | cons v vals ih =>
    intro wl w h
    rw [addGood_cons]
    split
    · exact ih wl w h
    · exact ih _ w (insertUniq_mono wl v w h)

theorem addGood_mem (st : IRState) :
    ∀ (vals wl : List Nat) (v : Nat), v ∈ vals → ownershipOf st v ≠ .none →
      v ∈ addGood st vals wl := by
  intro vals
  induction vals with
  | nil => intro wl v h; cases h
  | cons u vals ih =>
    intro wl v hv hnn
    rw [addGood_cons]
    rcases List.mem_cons.mp hv with heq | hmem
    · subst heq
      rw [if_neg hnn]
      exact addGood_mono st vals _ v (insertUniq_mem_self wl v)
    · exact ih _ v hmem hnn

theorem addGood_stable (st : IRState) :
    ∀ (vals wl : List Nat), (∀ v ∈ vals, ownershipOf st v ≠ .none → v ∈ wl) →
      addGood st vals wl = wl := by
  intro vals
  induction vals with
  | nil => intro wl _; rfl
  | cons v vals ih =>
    intro wl h
    rw [addGood_cons]
    by_cases hnn : ownershipOf st v = .none
    · rw [if_pos hnn]
      exact ih wl (fun u hu => h u (List.mem_cons_of_mem v hu))
    · rw [if_neg hnn, insertUniq_of_mem wl v (h v (List.mem_cons_self v vals) hnn)]
      exact ih wl (fun u hu => h u (List.mem_cons_of_mem v hu))

theorem honCheckList_good (st : IRState) :
    ∀ (vals : List Nat), (∀ v ∈ vals, noneOrPhi st v = true) →
      ∀ (wl : List Nat), honCheckList st vals wl = some (addGood st vals wl) := by
  intro vals
  induction vals with
  | nil => intro _ wl; rfl
  | cons v vals ih =>
    intro hall wl
    have hv : noneOrPhi st v = true := hall v (List.mem_cons_self v vals)
    have hrest : ∀ u ∈ vals, noneOrPhi st u = true :=
      fun u hu => hall u (List.mem_cons_of_mem v hu)
    unfold honCheckList
    rw [addGood_cons]
    by_cases hnn : ownershipOf st v = .none
    · rw [if_pos hnn, if_pos hnn]
      exact ih hrest wl
    · have hphi : ((kindOf st v = VKind.phiArgK) && isPhi st v) = true := by
        unfold noneOrPhi at hv
        have : (ownershipOf st v == OwnershipKind.none) = false := by
          simp [beq_iff_eq, hnn]
        simpa [this, beq_iff_eq] using hv
      rw [if_neg hnn, if_pos hphi, if_neg hnn]
      exact ih hrest (insertUniq wl v)

theorem honCheckList_bad (st : IRState) :
    ∀ (vals wl : List Nat) (v : Nat), v ∈ vals → noneOrPhi st v = false →
      honCheckList st vals wl = Option.none := by
  intro vals
  induction vals with
  | nil => intro wl v h; cases h
  | cons u vals ih =>
    intro wl v hv hbad
    unfold honCheckList
    rcases List.mem_cons.mp hv with heq | hmem
    · subst heq
      have hnn : ¬ ownershipOf st v = .none := by
        intro hc
        unfold noneOrPhi at hbad
        simp [beq_iff_eq, hc] at hbad
      have hnp : ((kindOf st v = VKind.phiArgK) && isPhi st v) = false := by
        unfold noneOrPhi at hbad
        simpa [beq_iff_eq] using (Bool.or_eq_false_iff.mp hbad).2
      rw [if_neg hnn, if_neg (by simp [hnp])]
    · by_cases hnn : ownershipOf st u = .none
      · rw [if_pos hnn]
        exact ih wl v hmem hbad
      · by_cases hcond : ((kindOf st u = VKind.phiArgK) && isPhi st u) = true
        · rw [if_neg hnn, if_pos hcond]
          exact ih (insertUniq wl u) v hmem hbad
        · rw [if_neg hnn, if_neg hcond]

theorem honLoop_succ (st : IRState) (phi n : Nat) (wl : List Nat) (idx : Nat) :
    honLoop st phi (n + 1) wl idx =
      if idx < wl.length then
        match honCheckList st (incomingPhiValuesOf st phi) wl with
        | some wl1 => honLoop st phi n wl1 (idx + 1)
        | none => false
      else true := rfl

theorem honLoop_good (st : IRState) (phi : Nat)
    (hall : ∀ v ∈ incomingPhiValuesOf st phi, noneOrPhi st v = true) :
    ∀ (fuel : Nat) (wl : List Nat) (idx : Nat),
      (∀ v ∈ incomingPhiValuesOf st phi, ownershipOf st v ≠ .none → v ∈ wl) →
      honLoop st phi fuel wl idx = true := by
  intro fuel
  induction fuel with
  | zero => intro wl idx _; rfl
  | succ n ih =>
    intro wl idx hwl
    rw [honLoop_succ]
    by_cases hlt : idx < wl.length
    · rw [if_pos hlt, honCheckList_good st _ hall wl,
        addGood_stable st _ wl hwl]
      exact ih wl (idx + 1) hwl
    · rw [if_neg hlt]

/-- C9: the debug-build checker hasOnlyNoneOwnershipIncomingValues
inspects only the direct incoming values of the initial phi it is given
(the loop body re-reads the initial phi's incoming values on every
iteration): it returns true exactly when every direct incoming value
either has None ownership or is itself a phi argument, regardless of the
ownership of values reachable transitively through those incoming phis. -/
theorem hasOnlyNone_checks_direct_only (st : IRState) (phi : Nat) :
    hasOnlyNoneOwnershipIncomingValues st phi =
      (incomingPhiValuesOf st phi).all (fun v => noneOrPhi st v) := by
  cases hall : (incomingPhiValuesOf st phi).all (fun v => noneOrPhi st v) with
  | true =>
    have hall2 : ∀ v ∈ incomingPhiValuesOf st phi, noneOrPhi st v = true :=
      fun v hv => List.all_eq_true.mp hall v hv
    unfold hasOnlyNoneOwnershipIncomingValues
    have e : (incomingPhiValuesOf st phi).length + 2 =
        ((incomingPhiValuesOf st phi).length + 1) + 1 := rfl
    rw [e, honLoop_succ]
    have h01 : (0 : Nat) < ([phi] : List Nat).length := by simp
    rw [if_pos h01, honCheckList_good st _ hall2 [phi]]
    exact honLoop_good st phi hall2 _ _ 1
      (fun v hv hnn => addGood_mem st _ [phi] v hv hnn)
  | false =>
    have ⟨v, hv, hbad⟩ : ∃ v ∈ incomingPhiValuesOf st phi, ¬ noneOrPhi st v = true := by
      simpa using (List.all_eq_false.mp hall)
    unfold hasOnlyNoneOwnershipIncomingValues
    have e : (incomingPhiValuesOf st phi).length + 2 =
        ((incomingPhiValuesOf st phi).length + 1) + 1 := rfl
    rw [e, honLoop_succ]
    have h01 : (0 : Nat) < ([phi] : List Nat).length := by simp
    rw [if_pos h01,
      honCheckList_bad st _ [phi] v hv (Bool.not_eq_true _ ▸ hbad)]

/-! ### The phi branch of valuesAreEqual -/

theorem kindOf_of_findArg (st : IRState) (v b i : Nat) (A : Arg)
    (h : findArg st v = some (b, i, A)) (hent : entryIdOf st ≠ some b) :
    kindOf st v = VKind.phiArgK := by
  unfold kindOf
  rw [h]
  simp [hent]

theorem vaePair_guaranteed (st : IRState) (a1 a2 b i1 i2 : Nat) (A1 A2 : Arg)
    (h1 : findArg st a1 = some (b, i1, A1)) (h2 : findArg st a2 = some (b, i2, A2))
    (hent : entryIdOf st ≠ some b)
    (hg : A1.ownership = .guaranteed ∨ A2.ownership = .guaranteed)
    (h wl : List (Nat × Nat)) :
    vaePair st a1 a2 h wl = (false, h, wl) := by
  have k1 := kindOf_of_findArg st a1 b i1 A1 h1 hent
  have k2 := kindOf_of_findArg st a2 b i2 A2 h2 hent
  unfold vaePair
  rw [h1, h2, k1, k2]
  by_cases htyp : A1.typ = A2.typ
  · simp [htyp, hg]
  · simp [htyp]

theorem vaePair_typ_mismatch (st : IRState) (a1 a2 b i1 i2 : Nat) (A1 A2 : Arg)
    (h1 : findArg st a1 = some (b, i1, A1)) (h2 : findArg st a2 = some (b, i2, A2))
    (hent : entryIdOf st ≠ some b)
    (htyp : A1.typ ≠ A2.typ)
    (h wl : List (Nat × Nat)) :
    vaePair st a1 a2 h wl = (false, h, wl) := by
  have k1 := kindOf_of_findArg st a1 b i1 A1 h1 hent
  have k2 := kindOf_of_findArg st a2 b i2 A2 h2 hent
  unfold vaePair
  rw [h1, h2, k1, k2]
  simp [htyp]

theorem vaePair_phi_branch (st : IRState) (a1 a2 b i1 i2 : Nat) (A1 A2 : Arg)
    (h1 : findArg st a1 = some (b, i1, A1)) (h2 : findArg st a2 = some (b, i2, A2))
    (hent : entryIdOf st ≠ some b)
    (htyp : A1.typ = A2.typ)
    (hg1 : A1.ownership ≠ .guaranteed) (hg2 : A2.ownership ≠ .guaranteed)
    (h wl : List (Nat × Nat)) :
    vaePair st a1 a2 h wl = pushIncomingPairs st a1 a2 (predsList st b) h wl := by
  have k1 := kindOf_of_findArg st a1 b i1 A1 h1 hent
  have k2 := kindOf_of_findArg st a2 b i2 A2 h2 hent
  unfold vaePair
  rw [h1, h2, k1, k2]
  simp [htyp, hg1, hg2]

/-- Distinct phi arguments of the same non-entry block with Guaranteed
ownership on either side are reported not equal. -/
theorem vae_guaranteed_false (st : IRState) (a1 a2 b i1 i2 : Nat) (A1 A2 : Arg)
    (hne : a1 ≠ a2)
    (h1 : findArg st a1 = some (b, i1, A1)) (h2 : findArg st a2 = some (b, i2, A2))
    (hent : entryIdOf st ≠ some b)
    (hg : A1.ownership = .guaranteed ∨ A2.ownership = .guaranteed) :
    valuesAreEqual st a1 a2 = false := by
  unfold valuesAreEqual
  rw [vaeRun_eq, vaeLoop_succ_cons]
  rw [vaePair_guaranteed st a1 a2 b i1 i2 A1 A2 h1 h2 hent hg]
  simp [hne]

theorem pushIncomingPairs_ok (st : IRState) (v1 v2 : Nat) :
    ∀ (ps : List Nat) (h wl : List (Nat × Nat)),
      (pushIncomingPairs st v1 v2 ps h wl).1 = true →
      ∀ p ∈ ps, (valueIncoming st v1 p).isSome ∧ (valueIncoming st v2 p).isSome := by
  intro ps
  induction ps with
  | nil => intro h wl _ p hp; cases hp
  | cons q ps ih =>
    intro h wl hok p hp
    match hx : valueIncoming st v1 q with
    | Option.none =>
      exfalso
      unfold pushIncomingPairs at hok
      rw [hx] at hok
      cases hok
    | some x =>
      match hy : valueIncoming st v2 q with
      | Option.none =>
        exfalso
        unfold pushIncomingPairs at hok
        rw [hx, hy] at hok
        cases hok
      | some y =>
        rw [pushIncomingPairs_cons_some st v1 v2 q ps h wl x y hx hy] at hok
        rcases List.mem_cons.mp hp with heq | hmem
        · subst heq
          exact ⟨by rw [hx]; rfl, by rw [hy]; rfl⟩
        · exact ih _ _ hok p hmem

/-! ### C3: what equality of two Owned phis does and does not imply -/

/-- C3 counterexample: in `exOwnedIncoming` the two phi arguments 20 and
21 of block 1 both have Owned ownership and valuesAreEqual(20, 21)
returns true, yet their shared direct incoming value 10 (reachable from both)
has ownership Owned, not None: the identity shortcut accepts the pair
(10, 10) without any ownership check. -/
theorem owned_equal_with_owned_incoming :
    valuesAreEqual exOwnedIncoming 20 21 = true ∧
    lookupArg exOwnedIncoming 20 = some ⟨20, 0, .owned⟩ ∧
    lookupArg exOwnedIncoming 21 = some ⟨21, 0, .owned⟩ ∧
    10 ∈ incomingPhiValuesOf exOwnedIncoming 20 ∧
    10 ∈ incomingPhiValuesOf exOwnedIncoming 21 ∧
    ownershipOf exOwnedIncoming 10 = .owned := by
  refine ⟨by decide, by decide, by decide, by decide, by decide, by decide⟩

/-- C3 amended: for distinct Owned phi arguments a1, a2 of the same
(non-entry) block, valuesAreEqual(a1, a2) = true does not force the
transitively reachable incoming values to have ownership None
(identical incoming values of any ownership pass the identity
shortcut); what the check does establish for the pair itself is that the
two arguments have the same type and that every predecessor supplies an
incoming value to both. -/
theorem owned_equal_phis_have_incoming_values (st : IRState) (a1 a2 b i1 i2 : Nat) (A1 A2 : Arg)
    (hne : a1 ≠ a2)
    (h1 : findArg st a1 = some (b, i1, A1)) (h2 : findArg st a2 = some (b, i2, A2))
    (hent : entryIdOf st ≠ some b)
    (ho1 : A1.ownership = .owned) (ho2 : A2.ownership = .owned)
    (heq : valuesAreEqual st a1 a2 = true) :
    A1.typ = A2.typ ∧
    ∀ p ∈ predsList st b, (valueIncoming st a1 p).isSome ∧ (valueIncoming st a2 p).isSome := by
  have hg1 : A1.ownership ≠ .guaranteed := by rw [ho1]; intro hc; cases hc
  have hg2 : A2.ownership ≠ .guaranteed := by rw [ho2]; intro hc; cases hc
  unfold valuesAreEqual at heq
  rw [vaeRun_eq, vaeLoop_succ_cons] at heq
  by_cases htyp : A1.typ = A2.typ
  · refine ⟨htyp, ?_⟩
    rw [vaePair_phi_branch st a1 a2 b i1 i2 A1 A2 h1 h2 hent htyp hg1 hg2] at heq
    simp only [hne, if_neg, if_false] at heq
    by_cases hok : (pushIncomingPairs st a1 a2 (predsList st b) [(a1, a2)] []).1 = true
    · exact pushIncomingPairs_ok st a1 a2 (predsList st b) [(a1, a2)] [] hok
    · exfalso
      simp only [Bool.not_eq_true] at hok
      simp [hok, hne] at heq
  · exfalso
    rw [vaePair_typ_mismatch st a1 a2 b i1 i2 A1 A2 h1 h2 hent htyp] at heq
    simp [hne] at heq

/-- Witness for the amended C3 at a concrete input. -/
theorem owned_equal_phis_have_incoming_values_witness :
    valuesAreEqual exOwnedIncoming 20 21 = true ∧
    ((⟨20, 0, .owned⟩ : Arg).typ = (⟨21, 0, .owned⟩ : Arg).typ ∧
      ∀ p ∈ predsList exOwnedIncoming 1,
        (valueIncoming exOwnedIncoming 20 p).isSome ∧
          (valueIncoming exOwnedIncoming 21 p).isSome) :=
  ⟨by decide,
    owned_equal_phis_have_incoming_values exOwnedIncoming 20 21 1 0 1 ⟨20, 0, .owned⟩
      ⟨21, 0, .owned⟩ (by decide) (by decide) (by decide) (by decide) rfl rfl (by decide)⟩

/-! ### C7: idempotence of redundant-phi elimination -/

/-- C7 counterexample: on `exCapChain` the first run of redundant-phi
elimination reports a change (it merges the pair in block 2 whose
equality proof fits in the 16-pair cap), and the second run reports a
change as well: the pair in block 1, cut off by the cap on the first
run, becomes cheaply provably equal once the first merge rewired its
incoming values, so the pass is not idempotent. -/
theorem second_run_still_changes :
    (runRedundantPhiElimination exCapChain).2 = true ∧
    (runRedundantPhiElimination (runRedundantPhiElimination exCapChain).1).2 = true := by
  refine ⟨by decide, by decide⟩

theorem oaLoop_no_change_or (b : Nat) :
    ∀ (fuel : Nat) (st : IRState) (i j combos : Nat) (changed : Bool),
      ((oaLoop b fuel st i j combos changed).1 = st ∧ changed = false) ∨
        (oaLoop b fuel st i j combos changed).2 = true := by
  intro fuel
  induction fuel with
  | zero =>
    intro st i j combos changed
    cases changed
    · exact Or.inl ⟨rfl, rfl⟩
    · exact Or.inr rfl
  | succ n ih =>
    intro st i j combos changed
    unfold oaLoop
    split
    · split
      · split
        · cases changed
          · exact Or.inl ⟨rfl, rfl⟩
          · exact Or.inr rfl
        · split
          · split
            · exact ih st i j (combos + 1) changed
            · split
              · rcases ih (mergeAt st b i j) i j (combos + 1) true with hl | hr
                · exact absurd hl.2 (by simp)
                · exact Or.inr hr
              · exact ih st i (j + 1) (combos + 1) changed
          · exact ih st i (j + 1) (combos + 1) changed
      · exact ih st (i + 1) (i + 2) combos changed
    · cases changed
      · exact Or.inl ⟨rfl, rfl⟩
      · exact Or.inr rfl

theorem oaLoop_no_change (b : Nat) (fuel : Nat) (st : IRState) (i j combos : Nat)
    (changed : Bool) (h : (oaLoop b fuel st i j combos changed).2 = false) :
    (oaLoop b fuel st i j combos changed).1 = st ∧ changed = false := by
  rcases oaLoop_no_change_or b fuel st i j combos changed with hl | hr
  · exact hl
  · rw [hr] at h; cases h

theorem rpeFold_no_change :
    ∀ (ids : List Nat) (acc : IRState × Bool),
      ((ids.foldl (fun acc bId =>
          let r := optimizeArgs acc.1 bId
          (r.1, acc.2 || r.2)) acc)).2 = false →
      (ids.foldl (fun acc bId =>
          let r := optimizeArgs acc.1 bId
          (r.1, acc.2 || r.2)) acc).1 = acc.1 ∧ acc.2 = false := by
  intro ids
  induction ids with
  | nil => intro acc h; exact ⟨rfl, h⟩
  | cons bId ids ih =>
    intro acc h
    rw [List.foldl_cons] at h ⊢
    have hrec := ih _ h
    have hor : (acc.2 || (optimizeArgs acc.1 bId).2) = false := hrec.2
    have hacc : acc.2 = false := (Bool.or_eq_false_iff.mp hor).1
    have hopt : (optimizeArgs acc.1 bId).2 = false := (Bool.or_eq_false_iff.mp hor).2
    have hst : (optimizeArgs acc.1 bId).1 = acc.1 :=
      (oaLoop_no_change bId _ acc.1 0 1 0 false hopt).1
    refine ⟨?_, hacc⟩
    rw [hrec.1, hst]

/-- C7 amended: redundant-phi elimination is idempotent whenever the
first run reports no change: in that case it also left the function
unchanged, and a second run performs no merge and reports no change.
(In general a second run can perform further merges, because the fixed
cost caps — 48 pair combinations per block, 16 visited pairs per
equality check — can defer a discoverable merge to a later run, as the
counterexample shows.) -/
theorem rpe_no_change_fixpoint (st : IRState)
    (h : (runRedundantPhiElimination st).2 = false) :
    (runRedundantPhiElimination st).1 = st ∧
      runRedundantPhiElimination (runRedundantPhiElimination st).1 = (st, false) := by
  unfold runRedundantPhiElimination at h ⊢
  by_cases hso : st.shouldOptimize
  · rw [if_pos hso] at h ⊢
    have hrec := rpeFold_no_change _ _ h
    have hst : (List.foldl (fun acc bId =>
        let r := optimizeArgs acc.1 bId
        (r.1, acc.2 || r.2)) (st, false) (st.blocks.map (fun blk => blk.id))).1 = st := hrec.1
    refine ⟨hst, ?_⟩
    rw [hst, if_pos hso]
    exact Prod.ext hst h
  · rw [if_neg hso] at h ⊢
    exact ⟨rfl, by rw [if_neg hso]⟩

/-- Witness for the amended C7 at a concrete input. -/
theorem rpe_no_change_fixpoint_witness :
    (runRedundantPhiElimination exTrivial).2 = false ∧
      (runRedundantPhiElimination exTrivial).1 = exTrivial ∧
      runRedundantPhiElimination (runRedundantPhiElimination exTrivial).1 = (exTrivial, false) := by
  refine ⟨by decide, (rpe_no_change_fixpoint exTrivial (by decide)).1,
    (rpe_no_change_fixpoint exTrivial (by decide)).2⟩

/-! ### Transport lemmas: what each IR mutation leaves unchanged -/

theorem find?_id_map (bs : List Block) (f : Block → Block)
    (hid : ∀ blk, (f blk).id = blk.id) (q : Nat) :
    (bs.map f).find? (fun blk => blk.id = q) = (bs.find? (fun blk => blk.id = q)).map f := by
  rw [List.find?_map]
  have hfun : ((fun blk : Block => decide (blk.id = q)) ∘ f) =
      fun blk : Block => decide (blk.id = q) := by
    funext blk
    simp [Function.comp, hid blk]
  rw [hfun]

theorem substUses_id (blk : Block) (o n : Nat) : (blk.substUses o n).id = blk.id := rfl

theorem substUses_args (blk : Block) (o n : Nat) : (blk.substUses o n).args = blk.args := rfl

theorem mapBlock_blocks (st : IRState) (b : Nat) (f : Block → Block) :
    (st.mapBlock b f).blocks = st.blocks.map (mapBlockFn b f) := rfl

theorem erasePhiArg_blocks (st : IRState) (b idx : Nat) :
    (erasePhiArg st b idx).blocks = st.blocks.map (eraseBlockFn b idx) := rfl

theorem eraseBlockFn_id (b idx : Nat) (blk : Block) : (eraseBlockFn b idx blk).id = blk.id := by
  unfold eraseBlockFn
  by_cases h : blk.id = b <;> simp [h]

theorem mapBlockFn_id (b : Nat) (f : Block → Block) (hid : ∀ blk, (f blk).id = blk.id)
    (blk : Block) : (mapBlockFn b f blk).id = blk.id := by
  unfold mapBlockFn
  by_cases h : blk.id = b <;> simp [h, hid]

theorem findBlock_of_map (st st' : IRState) (f : Block → Block)
    (hb : st'.blocks = st.blocks.map f) (hid : ∀ blk, (f blk).id = blk.id) (q : Nat) :
    findBlock st' q = (findBlock st q).map f := by
  unfold findBlock
  rw [hb]
  exact find?_id_map st.blocks f hid q

theorem getArg_congr (st1 st2 : IRState) (q : Nat)
    (h : argsAt st1 q = argsAt st2 q) (i : Nat) : getArg st1 q i = getArg st2 q i := by
  unfold argsAt at h
  unfold getArg
  cases h1 : findBlock st1 q with
  | none =>
    rw [h1] at h
    cases h2 : findBlock st2 q with
    | none => rfl
    | some blk2 => rw [h2] at h; cases h
  | some blk1 =>
    rw [h1] at h
    cases h2 : findBlock st2 q with
    | none => rw [h2] at h; cases h
    | some blk2 =>
      rw [h2] at h
      simp only [Option.map_some'] at h
      have harg : blk1.args = blk2.args := Option.some.inj h
      simp [harg]

theorem numArgs_congr (st1 st2 : IRState) (q : Nat)
    (h : argsAt st1 q = argsAt st2 q) : numArgs st1 q = numArgs st2 q := by
  unfold argsAt at h
  unfold numArgs
  cases h1 : findBlock st1 q with
  | none =>
    rw [h1] at h
    cases h2 : findBlock st2 q with
    | none => rfl
    | some blk2 => rw [h2] at h; cases h
  | some blk1 =>
    rw [h1] at h
    cases h2 : findBlock st2 q with
    | none => rw [h2] at h; cases h
    | some blk2 =>
      rw [h2] at h
      simp only [Option.map_some'] at h
      show blk1.args.length = blk2.args.length
      rw [Option.some.inj h]

theorem argsAt_of_map (st st' : IRState) (f : Block → Block)
    (hb : st'.blocks = st.blocks.map f) (hid : ∀ blk, (f blk).id = blk.id)
    (hargs : ∀ blk, (f blk).args = blk.args) (q : Nat) :
    argsAt st' q = argsAt st q := by
  unfold argsAt
  rw [findBlock_of_map st st' f hb hid]
  cases findBlock st q with
  | none => rfl
  | some blk => simp [hargs]

theorem argsAt_rauw (st : IRState) (o n q : Nat) : argsAt (st.rauw o n) q = argsAt st q :=
  argsAt_of_map st _ (fun blk => blk.substUses o n) rfl (fun _ => rfl) (fun _ => rfl) q

theorem argsAt_mapBlock (st : IRState) (b : Nat) (f : Block → Block)
    (hid : ∀ blk, (f blk).id = blk.id) (hargs : ∀ blk, (f blk).args = blk.args) (q : Nat) :
    argsAt (st.mapBlock b f) q = argsAt st q := by
  refine argsAt_of_map st _ (mapBlockFn b f) rfl (mapBlockFn_id b f hid) (fun blk => ?_) q
  unfold mapBlockFn
  by_cases h : blk.id = b <;> simp [h, hargs]

theorem argsAt_copy (st : IRState) (b c q : Nat) :
    argsAt (st.createCopyFront b c).1 q = argsAt st q :=
  argsAt_of_map st _
    (mapBlockFn b (fun blk => { blk with insts := copyInstOf st c :: blk.insts })) rfl
    (mapBlockFn_id b _ (fun _ => rfl)) (fun blk => by unfold mapBlockFn; split <;> rfl) q

theorem argsAt_appendInst (st : IRState) (b : Nat) (i : Inst) (q : Nat) :
    argsAt (st.appendInst b i) q = argsAt st q :=
  argsAt_mapBlock st b (fun blk => { blk with insts := blk.insts ++ [i] })
    (fun _ => rfl) (fun _ => rfl) q

theorem argsAt_destroy (st : IRState) (p v q : Nat) :
    argsAt (st.insertDestroyBefore p v) q = argsAt st q :=
  argsAt_of_map st _
    (mapBlockFn p (fun blk => { blk with insts := blk.insts ++ [destroyInstOf st v] })) rfl
    (mapBlockFn_id p _ (fun _ => rfl)) (fun blk => by unfold mapBlockFn; split <;> rfl) q

theorem argsAt_destroyStep (st : IRState) (b idx p q : Nat) :
    argsAt (destroyFoldStep st b idx p) q = argsAt st q := by
  unfold destroyFoldStep
  cases incomingSlot st p b idx with
  | none => rfl
  | some s =>
    by_cases h : s.ltEnd
    · simp only [h, if_true]
      exact argsAt_destroy st p s.val q
    · simp [h]

theorem argsAt_destroyFold (st : IRState) (b idx : Nat) :
    ∀ (ps : List Nat) (st1 : IRState) (q : Nat),
      argsAt ((ps.foldl (fun s p => destroyFoldStep s b idx p) st1)) q = argsAt st1 q := by
  intro ps
  induction ps with
  | nil => intro st1 q; rfl
  | cons p ps ih =>
    intro st1 q
    rw [List.foldl_cons, ih (destroyFoldStep st1 b idx p) q]
    exact argsAt_destroyStep st1 b idx p q

theorem argsAt_erase_other (st : IRState) (b idx q : Nat) (hq : q ≠ b) :
    argsAt (erasePhiArg st b idx) q = argsAt st q := by
  unfold argsAt
  rw [findBlock_of_map st _ (eraseBlockFn b idx) (erasePhiArg_blocks st b idx)
    (eraseBlockFn_id b idx)]
  cases h1 : findBlock st q with
  | none => rfl
  | some blk =>
    have hid : blk.id = q := by
      have := List.find?_some h1
      simpa using this
    simp only [Option.map_some']
    unfold eraseBlockFn
    simp [hid, hq]

theorem argsAt_erase_self (st : IRState) (b idx : Nat) :
    argsAt (erasePhiArg st b idx) b =
      (argsAt st b).map (fun args => args.eraseIdx idx) := by
  unfold argsAt
  rw [findBlock_of_map st _ (eraseBlockFn b idx) (erasePhiArg_blocks st b idx)
    (eraseBlockFn_id b idx)]
  cases h1 : findBlock st b with
  | none => rfl
  | some blk =>
    have hid : blk.id = b := by
      have := List.find?_some h1
      simpa using this
    simp only [Option.map_some']
    unfold eraseBlockFn
    simp [hid]

theorem flattenArgIds_map_eq (bs : List Block) (f : Block → Block)
    (hargs : ∀ blk, (f blk).args = blk.args) :
    ((bs.map f).map (fun blk => blk.args.map (fun a => a.id))).flatten =
      (bs.map (fun blk => blk.args.map (fun a => a.id))).flatten := by
  rw [List.map_map]
  have hfun : ((fun blk : Block => blk.args.map (fun a => a.id)) ∘ f) =
      fun blk : Block => blk.args.map (fun a => a.id) := by
    funext blk
    simp [Function.comp, hargs blk]
  rw [hfun]

theorem allArgIds_of_map (st st' : IRState) (f : Block → Block)
    (hb : st'.blocks = st.blocks.map f) (hargs : ∀ blk, (f blk).args = blk.args) :
    allArgIds st' = allArgIds st := by
  unfold allArgIds
  rw [hb]
  exact flattenArgIds_map_eq st.blocks f hargs

theorem allArgIds_rauw (st : IRState) (o n : Nat) :
    allArgIds (st.rauw o n) = allArgIds st :=
  allArgIds_of_map st _ (fun blk => blk.substUses o n) rfl (fun _ => rfl)

theorem allArgIds_copy (st : IRState) (b c : Nat) :
    allArgIds (st.createCopyFront b c).1 = allArgIds st :=
  allArgIds_of_map st _
    (mapBlockFn b (fun blk => { blk with insts := copyInstOf st c :: blk.insts })) rfl
    (fun blk => by unfold mapBlockFn; split <;> rfl)

theorem allArgIds_destroy (st : IRState) (p v : Nat) :
    allArgIds (st.insertDestroyBefore p v) = allArgIds st :=
  allArgIds_of_map st _
    (mapBlockFn p (fun blk => { blk with insts := blk.insts ++ [destroyInstOf st v] })) rfl
    (fun blk => by unfold mapBlockFn; split <;> rfl)

theorem allArgIds_destroyStep (st : IRState) (b idx p : Nat) :
    allArgIds (destroyFoldStep st b idx p) = allArgIds st := by
  unfold destroyFoldStep
  cases incomingSlot st p b idx with
  | none => rfl
  | some s =>
    by_cases h : s.ltEnd
    · simp only [h, if_true]
      exact allArgIds_destroy st p s.val
    · simp [h]

theorem allArgIds_destroyFold (st : IRState) (b idx : Nat) :
    ∀ (ps : List Nat) (st1 : IRState),
      allArgIds ((ps.foldl (fun s p => destroyFoldStep s b idx p) st1)) = allArgIds st1 := by
  intro ps
  induction ps with
  | nil => intro st1; rfl
  | cons p ps ih =>
    intro st1
    rw [List.foldl_cons, ih (destroyFoldStep st1 b idx p), allArgIds_destroyStep]

theorem flattenArgIds_sublist (bs : List Block) (f : Block → Block)
    (hargs : ∀ blk, List.Sublist ((f blk).args.map (fun a => a.id))
      (blk.args.map (fun a => a.id))) :
    List.Sublist ((bs.map f).map (fun blk => blk.args.map (fun a => a.id))).flatten
      (bs.map (fun blk => blk.args.map (fun a => a.id))).flatten := by
  induction bs with
  | nil => exact List.Sublist.refl _
  | cons blk bs ih =>
    simp only [List.map_cons, List.flatten_cons]
    exact List.Sublist.append (hargs blk) ih

theorem allArgIds_erase_sublist (st : IRState) (b idx : Nat) :
    List.Sublist (allArgIds (erasePhiArg st b idx)) (allArgIds st) := by
  unfold allArgIds
  rw [erasePhiArg_blocks]
  refine flattenArgIds_sublist st.blocks _ (fun blk => ?_)
  unfold eraseBlockFn
  by_cases h : blk.id = b
  · simp only [h, if_true]
    exact List.Sublist.map _ (List.eraseIdx_sublist blk.args idx)
  · simp [h]

theorem blockIds_of_map (st st' : IRState) (f : Block → Block)
    (hb : st'.blocks = st.blocks.map f) (hid : ∀ blk, (f blk).id = blk.id) :
    st'.blocks.map (fun blk => blk.id) = st.blocks.map (fun blk => blk.id) := by
  rw [hb, List.map_map]
  have hfun : ((fun blk : Block => blk.id) ∘ f) = fun blk : Block => blk.id := by
    funext blk
    simp [Function.comp, hid blk]
  rw [hfun]

theorem entry_of_map (st st' : IRState) (f : Block → Block)
    (hb : st'.blocks = st.blocks.map f) (hid : ∀ blk, (f blk).id = blk.id) :
    entryIdOf st' = entryIdOf st := by
  unfold entryIdOf
  rw [hb, List.head?_map]
  cases st.blocks.head? with
  | none => rfl
  | some blk => simp [hid blk]

theorem events_rauw (st : IRState) (o n : Nat) :
    (st.rauw o n).events = st.events ++ [Event.redirected o n] := rfl

theorem events_copy (st : IRState) (b c : Nat) :
    ((st.createCopyFront b c).1).events = st.events ++ [Event.createdCopy st.nextId c] := rfl

theorem events_destroy (st : IRState) (p v : Nat) :
    (st.insertDestroyBefore p v).events = st.events ++ [Event.insertedDestroy st.nextId v] := rfl

theorem events_erase (st : IRState) (b idx : Nat) (a : Arg) (ha : getArg st b idx = some a) :
    (erasePhiArg st b idx).events = st.events ++ [Event.erasedArg b a.id] := by
  unfold erasePhiArg
  rw [ha]

/-! ### Locating a uniquely-identified argument pair -/

theorem find?_decomp (l : List Block) (p : Block → Bool) (x : Block) (h : l.find? p = some x) :
    ∃ l1 l2, l = l1 ++ x :: l2 ∧ ∀ y ∈ l1, p y = false := by
  induction l with
  | nil => cases h
  | cons a l ih =>
    rw [List.find?_cons] at h
    by_cases hp : p a = true
    · simp only [hp] at h
      refine ⟨[], l, ?_, ?_⟩
      · rw [Option.some.inj h]; rfl
      · intro y hy; cases hy
    · simp only [Bool.not_eq_true] at hp
      simp only [hp] at h
      obtain ⟨l1, l2, hdec, hl1⟩ := ih h
      refine ⟨a :: l1, l2, by rw [hdec]; rfl, ?_⟩
      intro y hy
      rcases List.mem_cons.mp hy with heq | hmem
      · subst heq; exact hp
      · exact hl1 y hmem

theorem findArgIdx_pair_fst (blk : Block) (A1 A2 : Arg) (hargs : blk.args = [A1, A2]) :
    blk.findArgIdx A1.id = some (0, A1) := by
  unfold Block.findArgIdx
  rw [hargs]
  simp [List.enum, List.enumFrom, List.find?]

theorem findArgIdx_pair_snd (blk : Block) (A1 A2 : Arg) (hargs : blk.args = [A1, A2])
    (hne : A1.id ≠ A2.id) :
    blk.findArgIdx A2.id = some (1, A2) := by
  unfold Block.findArgIdx
  rw [hargs]
  have hne2 : ¬ (A1.id = A2.id) := hne
  simp [List.enum, List.enumFrom, List.find?, hne2]

theorem findArgIdx_none (blk : Block) (v : Nat) (h : v ∉ blk.args.map (fun a => a.id)) :
    blk.findArgIdx v = Option.none := by
  unfold Block.findArgIdx
  rw [List.find?_eq_none]
  intro ia hia
  have h2 : ia.2 ∈ blk.args := List.getElem?_mem (List.mem_enum_iff_getElem?.mp hia)
  simp only [decide_eq_true_eq]
  intro hc
  exact h (List.mem_map.mpr ⟨ia.2, h2, hc⟩)

theorem allArgIds_decomp (st : IRState) (l1 l2 : List Block) (blk : Block)
    (hdec : st.blocks = l1 ++ blk :: l2) :
    allArgIds st =
      ((l1.map (fun bl => bl.args.map (fun a => a.id))).flatten) ++
        (blk.args.map (fun a => a.id) ++
          ((l2.map (fun bl => bl.args.map (fun a => a.id))).flatten)) := by
  unfold allArgIds
  rw [hdec, List.map_append, List.flatten_append, List.map_cons, List.flatten_cons]

theorem findArg_of_pair (st : IRState) (b : Nat) (A1 A2 : Arg) (blk : Block)
    (hnd : (allArgIds st).Nodup)
    (hb : findBlock st b = some blk) (hargs : blk.args = [A1, A2])
    (hne : A1.id ≠ A2.id) :
    findArg st A1.id = some (b, 0, A1) ∧ findArg st A2.id = some (b, 1, A2) := by
  obtain ⟨l1, l2, hdec, hl1⟩ := find?_decomp st.blocks _ blk hb
  have hbid : blk.id = b := by simpa using List.find?_some hb
  have hnd2 := allArgIds_decomp st l1 l2 blk hdec ▸ hnd
  have hdisj := (List.nodup_append.mp hnd2).2.2
  have hnotin : ∀ v, v ∈ blk.args.map (fun a => a.id) →
      ∀ y ∈ l1, v ∉ y.args.map (fun a => a.id) := by
    intro v hv y hy hvy
    refine hdisj ?_ (List.mem_append_left _ hv)
    exact List.mem_flatten.mpr ⟨y.args.map (fun a => a.id), List.mem_map_of_mem _ hy, hvy⟩
  have hrun : ∀ (v : Nat) (r : Nat × Arg), v ∈ blk.args.map (fun a => a.id) →
      blk.findArgIdx v = some r →
      findArg st v = some (b, r.1, r.2) := by
    intro v r hv hfound
    unfold findArg
    rw [hdec, List.findSome?_append]
    have hl1none : (l1.findSome? (fun bl =>
        (bl.findArgIdx v).map (fun ia => (bl.id, ia.1, ia.2)))) = Option.none := by
      rw [List.findSome?_eq_none_iff]
      intro y hy
      rw [findArgIdx_none y v (hnotin v hv y hy)]
      rfl
    rw [hl1none, Option.none_or, List.findSome?_cons]
    rw [hfound]
    simp [hbid]
  constructor
  · refine hrun A1.id (0, A1) ?_ (findArgIdx_pair_fst blk A1 A2 hargs)
    rw [hargs]; simp
  · refine hrun A2.id (1, A2) ?_ (findArgIdx_pair_snd blk A1 A2 hargs hne)
    rw [hargs]; simp

theorem arg_id_ne_of_blocks (st : IRState) (hnd : (allArgIds st).Nodup)
    (blk blk' : Block) (hmem : blk ∈ st.blocks) (hmem' : blk' ∈ st.blocks)
    (hne : blk.id ≠ blk'.id) (x y : Nat)
    (hx : x ∈ blk.args.map (fun a => a.id)) (hy : y ∈ blk'.args.map (fun a => a.id)) :
    x ≠ y := by
  intro heq
  subst heq
  obtain ⟨l1, l2, hdec⟩ := List.append_of_mem hmem
  have hnd2 := allArgIds_decomp st l1 l2 blk hdec ▸ hnd
  have hdisj1 := (List.nodup_append.mp hnd2).2.2
  have hnd3 := (List.nodup_append.mp hnd2).2.1
  have hdisj2 := (List.nodup_append.mp hnd3).2.2
  have hmem'2 : blk' ∈ l1 ∨ blk' ∈ l2 := by
    rw [hdec] at hmem'
    rcases List.mem_append.mp hmem' with h1 | h2
    · exact Or.inl h1
    · rcases List.mem_cons.mp h2 with heq | h3
      · exact absurd (heq ▸ rfl) hne
      · exact Or.inr h3
  rcases hmem'2 with h1 | h2
  · refine hdisj1 ?_ (List.mem_append_left _ hx)
    exact List.mem_flatten.mpr ⟨blk'.args.map (fun a => a.id), List.mem_map_of_mem _ h1, hy⟩
  · refine hdisj2 hx ?_
    exact List.mem_flatten.mpr ⟨blk'.args.map (fun a => a.id), List.mem_map_of_mem _ h2, hy⟩

/-! ### The invariant for claim C1 -/

theorem argsPair_of_argsAt (st st' : IRState) (b : Nat) (A1 A2 : Arg)
    (h : argsAt st' b = argsAt st b)
    (hp : ∃ blk, findBlock st b = some blk ∧ blk.args = [A1, A2]) :
    ∃ blk, findBlock st' b = some blk ∧ blk.args = [A1, A2] := by
  obtain ⟨blk, hb, ha⟩ := hp
  unfold argsAt at h
  rw [hb] at h
  cases h' : findBlock st' b with
  | none => rw [h'] at h; cases h
  | some blk' =>
    rw [h'] at h
    simp only [Option.map_some'] at h
    exact ⟨blk', rfl, (Option.some.inj h).trans ha⟩

theorem pairInv_rauw (st0 : IRState) (b : Nat) (A1 A2 : Arg) (st : IRState)
    (H : PairInv st0 b A1 A2 st) (o n : Nat) (h1 : o ≠ A1.id) (h2 : o ≠ A2.id) :
    PairInv st0 b A1 A2 (st.rauw o n) := by
  obtain ⟨tail, hev, htail⟩ := H.evs
  refine ⟨?_, ?_, ?_, ?_, ?_⟩
  · rw [allArgIds_rauw]; exact H.nodup
  · exact (blockIds_of_map st _ (fun blk => blk.substUses o n) rfl (fun _ => rfl)).trans H.blkids
  · exact (entry_of_map st _ (fun blk => blk.substUses o n) rfl (fun _ => rfl)).trans H.entry
  · exact argsPair_of_argsAt st _ b A1 A2 (argsAt_rauw st o n b) H.argsPair
  · refine ⟨tail ++ [Event.redirected o n], ?_, ?_⟩
    · rw [events_rauw, hev, List.append_assoc]
    · intro e he
      rcases List.mem_append.mp he with hm | hm
      · exact htail e hm
      · have : e = Event.redirected o n := by simpa using hm
        subst this
        constructor <;> simp [eventTouchesArg, h1, h2]

theorem pairInv_copy (st0 : IRState) (b : Nat) (A1 A2 : Arg) (st : IRState)
    (H : PairInv st0 b A1 A2 st) (bb c : Nat) :
    PairInv st0 b A1 A2 (st.createCopyFront bb c).1 := by
  obtain ⟨tail, hev, htail⟩ := H.evs
  refine ⟨?_, ?_, ?_, ?_, ?_⟩
  · rw [allArgIds_copy]; exact H.nodup
  · exact (blockIds_of_map st _
      (mapBlockFn bb (fun blk => { blk with insts := copyInstOf st c :: blk.insts })) rfl
      (mapBlockFn_id bb _ (fun _ => rfl))).trans H.blkids
  · exact (entry_of_map st _
      (mapBlockFn bb (fun blk => { blk with insts := copyInstOf st c :: blk.insts })) rfl
      (mapBlockFn_id bb _ (fun _ => rfl))).trans H.entry
  · exact argsPair_of_argsAt st _ b A1 A2 (argsAt_copy st bb c b) H.argsPair
  · refine ⟨tail ++ [Event.createdCopy st.nextId c], ?_, ?_⟩
    · rw [events_copy, hev, List.append_assoc]
    · intro e he
      rcases List.mem_append.mp he with hm | hm
      · exact htail e hm
      · have : e = Event.createdCopy st.nextId c := by simpa using hm
        subst this
        exact ⟨rfl, rfl⟩

theorem pairInv_destroy (st0 : IRState) (b : Nat) (A1 A2 : Arg) (st : IRState)
    (H : PairInv st0 b A1 A2 st) (p v : Nat) :
    PairInv st0 b A1 A2 (st.insertDestroyBefore p v) := by
  obtain ⟨tail, hev, htail⟩ := H.evs
  refine ⟨?_, ?_, ?_, ?_, ?_⟩
  · rw [allArgIds_destroy]; exact H.nodup
  · exact (blockIds_of_map st _
      (mapBlockFn p (fun blk => { blk with insts := blk.insts ++ [destroyInstOf st v] })) rfl
      (mapBlockFn_id p _ (fun _ => rfl))).trans H.blkids
  · exact (entry_of_map st _
      (mapBlockFn p (fun blk => { blk with insts := blk.insts ++ [destroyInstOf st v] })) rfl
      (mapBlockFn_id p _ (fun _ => rfl))).trans H.entry
  · exact argsPair_of_argsAt st _ b A1 A2 (argsAt_destroy st p v b) H.argsPair
  · refine ⟨tail ++ [Event.insertedDestroy st.nextId v], ?_, ?_⟩
    · rw [events_destroy, hev, List.append_assoc]
    · intro e he
      rcases List.mem_append.mp he with hm | hm
      · exact htail e hm
      · have : e = Event.insertedDestroy st.nextId v := by simpa using hm
        subst this
        exact ⟨rfl, rfl⟩

theorem pairInv_destroyStep (st0 : IRState) (b : Nat) (A1 A2 : Arg) (st : IRState)
    (H : PairInv st0 b A1 A2 st) (bb idx p : Nat) :
    PairInv st0 b A1 A2 (destroyFoldStep st bb idx p) := by
  unfold destroyFoldStep
  cases incomingSlot st p bb idx with
  | none => exact H
  | some s =>
    by_cases h : s.ltEnd
    · simp only [h, if_true]
      exact pairInv_destroy st0 b A1 A2 st H p s.val
    · simp only [h]
      exact H

theorem pairInv_destroyFold (st0 : IRState) (b : Nat) (A1 A2 : Arg) (bb idx : Nat) :
    ∀ (ps : List Nat) (st : IRState), PairInv st0 b A1 A2 st →
      PairInv st0 b A1 A2 (ps.foldl (fun s p => destroyFoldStep s bb idx p) st) := by
  intro ps
  induction ps with
  | nil => intro st H; exact H
  | cons p ps ih =>
    intro st H
    rw [List.foldl_cons]
    exact ih _ (pairInv_destroyStep st0 b A1 A2 st H bb idx p)

theorem pairInv_erase (st0 : IRState) (b : Nat) (A1 A2 : Arg) (st : IRState)
    (H : PairInv st0 b A1 A2 st) (bb k : Nat) (hbb : b ≠ bb) (a : Arg)
    (ha : getArg st bb k = some a) (hna1 : a.id ≠ A1.id) (hna2 : a.id ≠ A2.id) :
    PairInv st0 b A1 A2 (erasePhiArg st bb k) := by
  obtain ⟨tail, hev, htail⟩ := H.evs
  refine ⟨?_, ?_, ?_, ?_, ?_⟩
  · exact (allArgIds_erase_sublist st bb k).nodup H.nodup
  · exact (blockIds_of_map st _ (eraseBlockFn bb k) (erasePhiArg_blocks st bb k)
      (eraseBlockFn_id bb k)).trans H.blkids
  · exact (entry_of_map st _ (eraseBlockFn bb k) (erasePhiArg_blocks st bb k)
      (eraseBlockFn_id bb k)).trans H.entry
  · exact argsPair_of_argsAt st _ b A1 A2 (argsAt_erase_other st bb k b hbb) H.argsPair
  · refine ⟨tail ++ [Event.erasedArg bb a.id], ?_, ?_⟩
    · rw [events_erase st bb k a ha, hev, List.append_assoc]
    · intro e he
      rcases List.mem_append.mp he with hm | hm
      · exact htail e hm
      · have : e = Event.erasedArg bb a.id := by simpa using hm
        subst this
        constructor <;> simp [eventTouchesArg, hna1, hna2]

theorem pairInv_eraseOwned (st0 : IRState) (b : Nat) (A1 A2 : Arg) (st : IRState)
    (H : PairInv st0 b A1 A2 st) (bb k : Nat) (hbb : b ≠ bb) (a : Arg)
    (ha : getArg st bb k = some a) (hna1 : a.id ≠ A1.id) (hna2 : a.id ≠ A2.id) :
    PairInv st0 b A1 A2 (eraseOwnedPhiArg st bb k) := by
  unfold eraseOwnedPhiArg
  rw [ha]
  by_cases hphi : isPhi st a.id
  · simp only [hphi, if_true]
    have H1 := pairInv_destroyFold st0 b A1 A2 bb k (predsList st bb) st H
    refine pairInv_erase st0 b A1 A2 _ H1 bb k hbb a ?_ hna1 hna2
    rw [getArg_congr _ st bb (argsAt_destroyFold st bb k (predsList st bb) st bb) k]
    exact ha
  · simp only [hphi]
    exact pairInv_erase st0 b A1 A2 st H bb k hbb a ha hna1 hna2

theorem merge_victim_ne (st0 : IRState) (b : Nat) (A1 A2 : Arg) (st : IRState)
    (H : PairInv st0 b A1 A2 st) (bb : Nat) (hbb : b ≠ bb) (k : Nat) (a : Arg)
    (ha : getArg st bb k = some a) : a.id ≠ A1.id ∧ a.id ≠ A2.id := by
  obtain ⟨blk, hbfind, hbargs⟩ := H.argsPair
  unfold getArg at ha
  cases hfb : findBlock st bb with
  | none => rw [hfb] at ha; cases ha
  | some blkbb =>
    rw [hfb] at ha
    simp only [Option.some_bind] at ha
    have hamem : a ∈ blkbb.args := List.getElem?_mem ha
    have hmem1 : blkbb ∈ st.blocks := List.mem_of_find?_eq_some hfb
    have hmem2 : blk ∈ st.blocks := List.mem_of_find?_eq_some hbfind
    have hid1 : blkbb.id = bb := by simpa using List.find?_some hfb
    have hid2 : blk.id = b := by simpa using List.find?_some hbfind
    have hidne : blkbb.id ≠ blk.id := by rw [hid1, hid2]; exact fun hc => hbb hc.symm
    have haid : a.id ∈ blkbb.args.map (fun x => x.id) := List.mem_map_of_mem _ hamem
    constructor
    · refine arg_id_ne_of_blocks st H.nodup blkbb blk hmem1 hmem2 hidne a.id A1.id haid ?_
      rw [hbargs]; simp
    · refine arg_id_ne_of_blocks st H.nodup blkbb blk hmem1 hmem2 hidne a.id A2.id haid ?_
      rw [hbargs]; simp

theorem pairInv_mergeAt (st0 : IRState) (b : Nat) (A1 A2 : Arg) (st : IRState)
    (H : PairInv st0 b A1 A2 st) (bb i j : Nat) (hbb : b ≠ bb)
    (a1 a2 : Arg) (ha1 : getArg st bb i = some a1) (ha2 : getArg st bb j = some a2) :
    PairInv st0 b A1 A2 (mergeAt st bb i j) := by
  obtain ⟨hne11, hne12⟩ := merge_victim_ne st0 b A1 A2 st H bb hbb i a1 ha1
  obtain ⟨hne21, hne22⟩ := merge_victim_ne st0 b A1 A2 st H bb hbb j a2 ha2
  unfold mergeAt
  rw [ha1, ha2]
  dsimp only
  by_cases hown : st.hasOwnership
  · rw [if_pos hown]
    by_cases hoo : a1.ownership = .owned ∧ a2.ownership = .owned
    · rw [if_pos hoo]
      have H1 := pairInv_copy st0 b A1 A2 st H bb a1.id
      have H2 := pairInv_rauw st0 b A1 A2 _ H1 a2.id (st.createCopyFront bb a1.id).2 hne21 hne22
      refine pairInv_eraseOwned st0 b A1 A2 _ H2 bb j hbb a2 ?_ hne21 hne22
      rw [getArg_congr _ st bb ((argsAt_rauw _ _ _ bb).trans (argsAt_copy st bb a1.id bb)) j]
      exact ha2
    · rw [if_neg hoo]
      by_cases hon : a1.ownership = .owned ∧ a2.ownership = .none
      · rw [if_pos hon]
        have H2 := pairInv_rauw st0 b A1 A2 st H a1.id a2.id hne11 hne12
        refine pairInv_eraseOwned st0 b A1 A2 _ H2 bb i hbb a1 ?_ hne11 hne12
        rw [getArg_congr _ st bb (argsAt_rauw _ _ _ bb) i]
        exact ha1
      · rw [if_neg hon]
        by_cases hno : a1.ownership = .none ∧ a2.ownership = .owned
        · rw [if_pos hno]
          have H2 := pairInv_rauw st0 b A1 A2 st H a2.id a1.id hne21 hne22
          refine pairInv_eraseOwned st0 b A1 A2 _ H2 bb j hbb a2 ?_ hne21 hne22
          rw [getArg_congr _ st bb (argsAt_rauw _ _ _ bb) j]
          exact ha2
        · rw [if_neg hno]
          have H2 := pairInv_rauw st0 b A1 A2 st H a2.id a1.id hne21 hne22
          refine pairInv_erase st0 b A1 A2 _ H2 bb j hbb a2 ?_ hne21 hne22
          rw [getArg_congr _ st bb (argsAt_rauw _ _ _ bb) j]
          exact ha2
  · rw [if_neg hown]
    have H2 := pairInv_rauw st0 b A1 A2 st H a2.id a1.id hne21 hne22
    refine pairInv_erase st0 b A1 A2 _ H2 bb j hbb a2 ?_ hne21 hne22
    rw [getArg_congr _ st bb (argsAt_rauw _ _ _ bb) j]
    exact ha2

theorem oaLoop_pairInv (st0 : IRState) (b : Nat) (A1 A2 : Arg)
    (hne : A1.id ≠ A2.id) (hent : entryIdOf st0 ≠ some b)
    (hg : A1.ownership = .guaranteed ∨ A2.ownership = .guaranteed) (bb : Nat) :
    ∀ (fuel : Nat) (st : IRState) (i j combos : Nat) (changed : Bool),
      PairInv st0 b A1 A2 st → i < j →
      PairInv st0 b A1 A2 (oaLoop bb fuel st i j combos changed).1 := by
  intro fuel
  induction fuel with
  | zero => intro st i j combos changed H _; exact H
  | succ n ih =>
    intro st i j combos changed H hij
    unfold oaLoop
    by_cases hi : i < numArgs st bb
    · rw [if_pos hi]
      by_cases hj : j < numArgs st bb
      · rw [if_pos hj]
        by_cases hcap : 48 < combos + 1
        · rw [if_pos hcap]
          exact H
        · rw [if_neg hcap]
          cases hga1 : getArg st bb i with
          | none =>
            cases hga2 : getArg st bb j with
            | none =>
              dsimp only
              exact ih st i (j + 1) (combos + 1) changed H (Nat.lt_succ_of_lt hij)
            | some a2 =>
              dsimp only
              exact ih st i (j + 1) (combos + 1) changed H (Nat.lt_succ_of_lt hij)
          | some a1 =>
            cases hga2 : getArg st bb j with
            | none =>
              dsimp only
              exact ih st i (j + 1) (combos + 1) changed H (Nat.lt_succ_of_lt hij)
            | some a2 =>
              dsimp only
              by_cases hphi : ¬ (isPhi st a1.id ∧ isPhi st a2.id)
              · rw [if_pos hphi]
                exact ih st i j (combos + 1) changed H hij
              · rw [if_neg hphi]
                by_cases hvae : valuesAreEqual st a1.id a2.id = true
                · rw [if_pos hvae]
                  by_cases hbeq : bb = b
                  · exfalso
                    subst hbeq
                    obtain ⟨blk, hbf, hba⟩ := H.argsPair
                    have hn2 : numArgs st bb = 2 := by
                      unfold numArgs
                      rw [hbf]
                      dsimp only
                      rw [hba]
                      rfl
                    have hi0 : i = 0 := by omega
                    have hj1 : j = 1 := by omega
                    subst hi0
                    subst hj1
                    have e1 : getArg st bb 0 = some A1 := by
                      unfold getArg
                      rw [hbf]
                      simp only [Option.some_bind]
                      rw [hba]
                      rfl
                    have e2 : getArg st bb 1 = some A2 := by
                      unfold getArg
                      rw [hbf]
                      simp only [Option.some_bind]
                      rw [hba]
                      rfl
                    have ha1A : a1 = A1 := Option.some.inj (hga1.symm.trans e1)
                    have ha2A : a2 = A2 := Option.some.inj (hga2.symm.trans e2)
                    have hfa := findArg_of_pair st bb A1 A2 blk H.nodup hbf hba hne
                    have hentst : entryIdOf st ≠ some bb := by rw [H.entry]; exact hent
                    have hfalse := vae_guaranteed_false st A1.id A2.id bb 0 1 A1 A2 hne
                      hfa.1 hfa.2 hentst hg
                    rw [ha1A, ha2A] at hvae
                    rw [hfalse] at hvae
                    cases hvae
                  · have hbne : b ≠ bb := fun hc => hbeq hc.symm
                    exact ih (mergeAt st bb i j) i j (combos + 1) true
                      (pairInv_mergeAt st0 b A1 A2 st H bb i j hbne a1 a2 hga1 hga2) hij
                · rw [if_neg hvae]
                  exact ih st i (j + 1) (combos + 1) changed H (Nat.lt_succ_of_lt hij)
      · rw [if_neg hj]
        exact ih st (i + 1) (i + 2) combos changed H (Nat.lt_succ_self (i + 1))
    · rw [if_neg hi]
      exact H

theorem optimizeArgs_pairInv (st0 : IRState) (b : Nat) (A1 A2 : Arg)
    (hne : A1.id ≠ A2.id) (hent : entryIdOf st0 ≠ some b)
    (hg : A1.ownership = .guaranteed ∨ A2.ownership = .guaranteed)
    (bb : Nat) (st : IRState) (H : PairInv st0 b A1 A2 st) :
    PairInv st0 b A1 A2 (optimizeArgs st bb).1 :=
  oaLoop_pairInv st0 b A1 A2 hne hent hg bb (numArgs st bb + 60) st 0 1 0 false H
    (Nat.lt_succ_self 0)

theorem rpeFold_pairInv (st0 : IRState) (b : Nat) (A1 A2 : Arg)
    (hne : A1.id ≠ A2.id) (hent : entryIdOf st0 ≠ some b)
    (hg : A1.ownership = .guaranteed ∨ A2.ownership = .guaranteed) :
    ∀ (ids : List Nat) (acc : IRState × Bool), PairInv st0 b A1 A2 acc.1 →
      PairInv st0 b A1 A2 ((ids.foldl (fun acc bId =>
        let r := optimizeArgs acc.1 bId
        (r.1, acc.2 || r.2)) acc)).1 := by
  intro ids
  induction ids with
  | nil => intro acc H; exact H
  | cons bId ids ih =>
    intro acc H
    rw [List.foldl_cons]
    exact ih _ (optimizeArgs_pairInv st0 b A1 A2 hne hent hg bId acc.1 H)

/-- C1 counterexample: the original claim is false for blocks larger
than the pair.  On exGuardedTriple, arguments 10 (Guaranteed) and 12
(None) form a phi pair of block 1 with a Guaranteed member, and
valuesAreEqual(10, 12) = false as the claim says — yet the pass does NOT
leave the pair untouched: argument 12 is merged with the structurally
equal third argument 11 (the None x None merge), its uses are redirected
to 11 and it is erased from the block. -/
theorem guaranteed_pair_member_erased :
    argsAt exGuardedTriple 1 =
      some [⟨10, 0, .guaranteed⟩, ⟨11, 1, .none⟩, ⟨12, 1, .none⟩] ∧
    isPhi exGuardedTriple 10 = true ∧ isPhi exGuardedTriple 12 = true ∧
    valuesAreEqual exGuardedTriple 10 12 = false ∧
    Event.redirected 12 11 ∈ (runRedundantPhiElimination exGuardedTriple).1.events ∧
    Event.erasedArg 1 12 ∈ (runRedundantPhiElimination exGuardedTriple).1.events ∧
    argsAt (runRedundantPhiElimination exGuardedTriple).1 1 =
      some [⟨10, 0, .guaranteed⟩, ⟨11, 1, .none⟩] := by
  refine ⟨by decide, by decide, by decide, by decide, by decide, by decide, by decide⟩

/-- C1 amended: a pair of phi arguments of the same (non-entry) block
with at least one Guaranteed member always fails valuesAreEqual, so the
pass never merges the two with each other; and when the block holds
exactly this pair, both arguments survive the whole run and no emitted
event redirects, erases or replaces either of them.  (In larger blocks
the non-Guaranteed member may still be erased by a merge with a third,
structurally equal argument — see the counterexample.) -/
theorem guaranteed_pair_unmergeable (st : IRState) (b i1 i2 : Nat) (A1 A2 : Arg)
    (hwf : wfIds st) (hne : A1.id ≠ A2.id)
    (h1 : findArg st A1.id = some (b, i1, A1)) (h2 : findArg st A2.id = some (b, i2, A2))
    (hent : entryIdOf st ≠ some b)
    (hg : A1.ownership = .guaranteed ∨ A2.ownership = .guaranteed) :
    valuesAreEqual st A1.id A2.id = false ∧
    (∀ blk, findBlock st b = some blk → blk.args = [A1, A2] →
      (∃ blk1, findBlock (runRedundantPhiElimination st).1 b = some blk1 ∧
        blk1.args = [A1, A2]) ∧
      (∃ tail, (runRedundantPhiElimination st).1.events = st.events ++ tail ∧
        ∀ e ∈ tail, eventTouchesArg e A1.id = false ∧ eventTouchesArg e A2.id = false)) := by
  have hnodup : (allArgIds st).Nodup := by
    have hd := hwf.1
    unfold allDefIds at hd
    exact hd.of_append_left
  have hvae : valuesAreEqual st A1.id A2.id = false :=
    vae_guaranteed_false st A1.id A2.id b i1 i2 A1 A2 hne h1 h2 hent hg
  refine ⟨hvae, fun blk hb hargs => ?_⟩
  have H0 : PairInv st b A1 A2 st :=
    ⟨hnodup, rfl, rfl, ⟨blk, hb, hargs⟩, ⟨[], by simp, fun e he => by cases he⟩⟩
  have Hfin : PairInv st b A1 A2 (runRedundantPhiElimination st).1 := by
    unfold runRedundantPhiElimination
    by_cases hso : st.shouldOptimize
    · rw [if_pos hso]
      exact rpeFold_pairInv st b A1 A2 hne hent hg _ (st, false) H0
    · rw [if_neg hso]
      exact H0
  exact ⟨Hfin.argsPair, Hfin.evs⟩

/-- Witness for the amended C1 at a concrete input: two structurally
identical Guaranteed phi arguments that are their block's only
arguments. -/
theorem guaranteed_pair_unmergeable_witness :
    valuesAreEqual exGuaranteedPair 10 11 = false ∧
    (∀ blk, findBlock exGuaranteedPair 1 = some blk →
      blk.args = [⟨10, 0, .guaranteed⟩, ⟨11, 0, .guaranteed⟩] →
      (∃ blk1, findBlock (runRedundantPhiElimination exGuaranteedPair).1 1 = some blk1 ∧
        blk1.args = [⟨10, 0, .guaranteed⟩, ⟨11, 0, .guaranteed⟩]) ∧
      (∃ tail, (runRedundantPhiElimination exGuaranteedPair).1.events =
          exGuaranteedPair.events ++ tail ∧
        ∀ e ∈ tail, eventTouchesArg e 10 = false ∧ eventTouchesArg e 11 = false)) :=
  guaranteed_pair_unmergeable exGuaranteedPair 1 0 1
    ⟨10, 0, .guaranteed⟩ ⟨11, 0, .guaranteed⟩
    (by decide) (by decide) (by decide) (by decide) (by decide) (Or.inl rfl)

/-! ### Transport lemmas for terminators, phi-ness and incoming slots -/

theorem targets_subst (t : Terminator) (o n q : Nat) :
    (t.substUses o n).targets q = t.targets q := by
  cases t <;> rfl

theorem slotsTo_subst (t : Terminator) (o n q : Nat) :
    (t.substUses o n).slotsTo q = (t.slotsTo q).map (fun s => s.subst o n) := by
  cases t with
  | br d a =>
    unfold Terminator.substUses Terminator.slotsTo
    by_cases h : d = q <;> simp [h]
  | condBr c td ta fd fa =>
    unfold Terminator.substUses Terminator.slotsTo
    by_cases h1 : td = q
    · simp [h1]
    · by_cases h2 : fd = q <;> simp [h1, h2]
  | other ops => rfl

theorem allCongr {α : Type} (l : List α) (f g : α → Bool)
    (h : ∀ x ∈ l, f x = g x) : l.all f = l.all g := by
  induction l with
  | nil => rfl
  | cons x l ih =>
    simp only [List.all_cons]
    rw [h x (List.mem_cons_self x l), ih (fun y hy => h y (List.mem_cons_of_mem x hy))]

theorem findArg_of_map_pres (st st' : IRState) (f : Block → Block)
    (hb : st'.blocks = st.blocks.map f) (hid : ∀ blk, (f blk).id = blk.id)
    (hargs : ∀ blk, (f blk).args = blk.args) (v : Nat) :
    findArg st' v = findArg st v := by
  unfold findArg
  rw [hb, List.findSome?_map]
  have hfun : ((fun blk : Block => (blk.findArgIdx v).map (fun ia => (blk.id, ia.1, ia.2))) ∘ f)
      = fun blk : Block => (blk.findArgIdx v).map (fun ia => (blk.id, ia.1, ia.2)) := by
    funext blk
    have h1 : (f blk).findArgIdx v = blk.findArgIdx v := by
      unfold Block.findArgIdx
      rw [hargs]
    simp [Function.comp, h1, hid]
  rw [hfun]

theorem predsList_of_map (st st' : IRState) (f : Block → Block)
    (hb : st'.blocks = st.blocks.map f) (hid : ∀ blk, (f blk).id = blk.id)
    (htgt : ∀ blk q, (f blk).term.targets q = blk.term.targets q) (b : Nat) :
    predsList st' b = predsList st b := by
  unfold predsList
  rw [hb, List.filter_map]
  have hfun : ((fun blk : Block => blk.term.targets b) ∘ f) =
      fun blk : Block => blk.term.targets b := by
    funext blk
    simp [Function.comp, htgt]
  rw [hfun, List.map_map]
  have hfun2 : ((fun blk : Block => blk.id) ∘ f) = fun blk : Block => blk.id := by
    funext blk
    simp [Function.comp, hid]
  rw [hfun2]

theorem incomingSlot_of_map_term (st st' : IRState) (f : Block → Block)
    (hb : st'.blocks = st.blocks.map f) (hid : ∀ blk, (f blk).id = blk.id)
    (hterm : ∀ blk, (f blk).term = blk.term) (p b idx : Nat) :
    incomingSlot st' p b idx = incomingSlot st p b idx := by
  unfold incomingSlot
  rw [findBlock_of_map st st' f hb hid]
  cases findBlock st p with
  | none => rfl
  | some pb => simp [hterm]

theorem incomingSlot_rauw (st : IRState) (o n p b idx : Nat) :
    incomingSlot (st.rauw o n) p b idx =
      (incomingSlot st p b idx).map (fun s => s.subst o n) := by
  unfold incomingSlot
  rw [findBlock_of_map st _ (fun blk => blk.substUses o n) rfl (fun _ => rfl)]
  cases findBlock st p with
  | none => rfl
  | some pb =>
    simp only [Option.map_some', Option.some_bind]
    show ((pb.term.substUses o n).slotsTo b)[idx]? = _
    rw [slotsTo_subst, List.getElem?_map]

theorem isPhiAt_of_map (st st' : IRState) (f : Block → Block)
    (hb : st'.blocks = st.blocks.map f) (hid : ∀ blk, (f blk).id = blk.id)
    (htgt : ∀ blk q, (f blk).term.targets q = blk.term.targets q)
    (hslots : ∀ blk q, ((f blk).term.slotsTo q).length = (blk.term.slotsTo q).length)
    (b idx : Nat) :
    isPhiAt st' b idx = isPhiAt st b idx := by
  unfold isPhiAt
  rw [entry_of_map st st' f hb hid, predsList_of_map st st' f hb hid htgt]
  have hall : ∀ p ∈ predsList st b,
      (match findBlock st' p with
       | some pb => decide (idx < (pb.term.slotsTo b).length)
       | none => false) =
      (match findBlock st p with
       | some pb => decide (idx < (pb.term.slotsTo b).length)
       | none => false) := by
    intro p _
    rw [findBlock_of_map st st' f hb hid]
    cases findBlock st p with
    | none => rfl
    | some pb =>
      simp only [Option.map_some']
      rw [hslots]
  rw [allCongr _ _ _ hall]

theorem isPhi_of_map (st st' : IRState) (f : Block → Block)
    (hb : st'.blocks = st.blocks.map f) (hid : ∀ blk, (f blk).id = blk.id)
    (hargs : ∀ blk, (f blk).args = blk.args)
    (htgt : ∀ blk q, (f blk).term.targets q = blk.term.targets q)
    (hslots : ∀ blk q, ((f blk).term.slotsTo q).length = (blk.term.slotsTo q).length)
    (v : Nat) : isPhi st' v = isPhi st v := by
  unfold isPhi
  rw [findArg_of_map_pres st st' f hb hid hargs]
  cases findArg st v with
  | none => rfl
  | some bia => exact isPhiAt_of_map st st' f hb hid htgt hslots bia.1 bia.2.1

theorem isPhi_rauw (st : IRState) (o n v : Nat) : isPhi (st.rauw o n) v = isPhi st v :=
  isPhi_of_map st _ (fun blk => blk.substUses o n) rfl (fun _ => rfl) (fun _ => rfl)
    (fun blk q => targets_subst blk.term o n q)
    (fun blk q => by
      show ((blk.term.substUses o n).slotsTo q).length = _
      rw [slotsTo_subst, List.length_map]) v

theorem copyFn_term (st : IRState) (c : Nat) (bb : Nat) (blk : Block) :
    ((mapBlockFn bb (fun bl => { bl with insts := copyInstOf st c :: bl.insts })) blk).term
      = blk.term := by
  unfold mapBlockFn
  split <;> rfl

theorem destroyFn_term (st : IRState) (v : Nat) (p : Nat) (blk : Block) :
    ((mapBlockFn p (fun bl => { bl with insts := bl.insts ++ [destroyInstOf st v] })) blk).term
      = blk.term := by
  unfold mapBlockFn
  split <;> rfl

theorem isPhi_copy (st : IRState) (bb c v : Nat) :
    isPhi (st.createCopyFront bb c).1 v = isPhi st v :=
  isPhi_of_map st _ (mapBlockFn bb (fun bl => { bl with insts := copyInstOf st c :: bl.insts }))
    rfl (mapBlockFn_id bb _ (fun _ => rfl))
    (fun blk => by unfold mapBlockFn; split <;> rfl)
    (fun blk q => by rw [copyFn_term]) (fun blk q => by rw [copyFn_term]) v

theorem incomingSlot_copy (st : IRState) (bb c p b idx : Nat) :
    incomingSlot (st.createCopyFront bb c).1 p b idx = incomingSlot st p b idx :=
  incomingSlot_of_map_term st _
    (mapBlockFn bb (fun bl => { bl with insts := copyInstOf st c :: bl.insts })) rfl
    (mapBlockFn_id bb _ (fun _ => rfl)) (copyFn_term st c bb) p b idx

theorem incomingSlot_destroy (st : IRState) (pd v p b idx : Nat) :
    incomingSlot (st.insertDestroyBefore pd v) p b idx = incomingSlot st p b idx :=
  incomingSlot_of_map_term st _
    (mapBlockFn pd (fun bl => { bl with insts := bl.insts ++ [destroyInstOf st v] })) rfl
    (mapBlockFn_id pd _ (fun _ => rfl)) (destroyFn_term st v pd) p b idx

theorem incomingSlot_destroyStep (st : IRState) (b1 i1 p1 p b idx : Nat) :
    incomingSlot (destroyFoldStep st b1 i1 p1) p b idx = incomingSlot st p b idx := by
  unfold destroyFoldStep
  cases incomingSlot st p1 b1 i1 with
  | none => rfl
  | some s =>
    by_cases h : s.ltEnd
    · simp only [h, if_true]
      exact incomingSlot_destroy st p1 s.val p b idx
    · simp [h]

theorem predsList_copy (st : IRState) (bb c b : Nat) :
    predsList (st.createCopyFront bb c).1 b = predsList st b :=
  predsList_of_map st _
    (mapBlockFn bb (fun bl => { bl with insts := copyInstOf st c :: bl.insts })) rfl
    (mapBlockFn_id bb _ (fun _ => rfl))
    (fun blk q => by rw [copyFn_term]) b

theorem predsList_rauw (st : IRState) (o n b : Nat) :
    predsList (st.rauw o n) b = predsList st b :=
  predsList_of_map st _ (fun blk => blk.substUses o n) rfl (fun _ => rfl)
    (fun blk q => targets_subst blk.term o n q) b

theorem nextId_rauw (st : IRState) (o n : Nat) : (st.rauw o n).nextId = st.nextId := rfl

theorem nextId_copy (st : IRState) (bb c : Nat) :
    ((st.createCopyFront bb c).1).nextId = st.nextId + 1 := rfl

theorem nextId_destroy (st : IRState) (p v : Nat) :
    (st.insertDestroyBefore p v).nextId = st.nextId + 1 := rfl

theorem copyId_eq (st : IRState) (bb c : Nat) : (st.createCopyFront bb c).2 = st.nextId := rfl

/-! ### The destroy-insertion fold of eraseOwnedPhiArgument -/

theorem destroyFoldStep_none (st : IRState) (b idx p : Nat)
    (h : incomingSlot st p b idx = Option.none) : destroyFoldStep st b idx p = st := by
  unfold destroyFoldStep
  rw [h]

theorem destroyFoldStep_skip (st : IRState) (b idx p : Nat) (s : Slot)
    (h : incomingSlot st p b idx = some s) (hlt : s.ltEnd = false) :
    destroyFoldStep st b idx p = st := by
  unfold destroyFoldStep
  rw [h]
  dsimp only
  rw [hlt]
  simp

theorem destroyFoldStep_destroy (st : IRState) (b idx p : Nat) (s : Slot)
    (h : incomingSlot st p b idx = some s) (hlt : s.ltEnd = true) :
    destroyFoldStep st b idx p = st.insertDestroyBefore p s.val := by
  unfold destroyFoldStep
  rw [h]
  dsimp only
  rw [hlt]
  simp

theorem destroyEvsPlain_cons (st : IRState) (b idx p : Nat) (ps : List Nat) (n : Nat) :
    destroyEvsPlain st b idx (p :: ps) n =
      match incomingSlot st p b idx with
      | some s =>
        if s.ltEnd then
          Event.insertedDestroy n s.val :: destroyEvsPlain st b idx ps (n + 1)
        else destroyEvsPlain st b idx ps n
      | none => destroyEvsPlain st b idx ps n := rfl

theorem destroyEvsPlain_congr (st1 st2 : IRState) (b idx : Nat)
    (hs : ∀ p, incomingSlot st1 p b idx = incomingSlot st2 p b idx) :
    ∀ (ps : List Nat) (n : Nat),
      destroyEvsPlain st1 b idx ps n = destroyEvsPlain st2 b idx ps n := by
  intro ps
  induction ps with
  | nil => intro n; rfl
  | cons p ps ih =>
    intro n
    rw [destroyEvsPlain_cons, destroyEvsPlain_cons, hs p]
    cases incomingSlot st2 p b idx with
    | none => exact ih n
    | some s =>
      by_cases h : s.ltEnd
      · simp only [h, if_true]
        rw [ih (n + 1)]
      · simp only [h]
        exact ih n

theorem destroyFold_spec (b idx : Nat) :
    ∀ (ps : List Nat) (st : IRState),
      ((ps.foldl (fun s p => destroyFoldStep s b idx p) st)).events =
        st.events ++ destroyEvsPlain st b idx ps st.nextId ∧
      ((ps.foldl (fun s p => destroyFoldStep s b idx p) st)).nextId =
        st.nextId + (destroyEvsPlain st b idx ps st.nextId).length := by
  intro ps
  induction ps with
  | nil => intro st; exact ⟨by simp [destroyEvsPlain], by simp [destroyEvsPlain]⟩
  | cons p ps ih =>
    intro st
    rw [List.foldl_cons, destroyEvsPlain_cons]
    cases hslot : incomingSlot st p b idx with
    | none =>
      rw [destroyFoldStep_none st b idx p hslot]
      exact ih st
    | some s =>
      by_cases hlt : s.ltEnd
      · simp only [hlt, if_true]
        rw [destroyFoldStep_destroy st b idx p s hslot hlt]
        have hcongr : destroyEvsPlain (st.insertDestroyBefore p s.val) b idx ps
            (st.nextId + 1) = destroyEvsPlain st b idx ps (st.nextId + 1) :=
          destroyEvsPlain_congr _ st b idx
            (fun q => incomingSlot_destroy st p s.val q b idx) ps (st.nextId + 1)
        obtain ⟨hev, hni⟩ := ih (st.insertDestroyBefore p s.val)
        constructor
        · rw [hev, events_destroy, nextId_destroy, hcongr, List.append_assoc]
          rfl
        · rw [hni, nextId_destroy, hcongr]
          simp only [List.length_cons]
          omega
      · simp only [Bool.not_eq_true] at hlt
        simp only [hlt]
        rw [destroyFoldStep_skip st b idx p s hslot hlt]
        exact ih st

/-! ### Reference ids under the mutations -/

theorem allRefIds_eq (st : IRState) :
    allRefIds st = (st.blocks.map blockRefIds).flatten := rfl

theorem allRefIds_mem_of_map (st st' : IRState) (f : Block → Block)
    (hb : st'.blocks = st.blocks.map f) (P : Nat → Prop)
    (hsub : ∀ blk, ∀ x ∈ blockRefIds (f blk), x ∈ blockRefIds blk ∨ P x) :
    ∀ x ∈ allRefIds st', x ∈ allRefIds st ∨ P x := by
  intro x hx
  rw [allRefIds_eq, hb, List.map_map] at hx
  obtain ⟨l, hl, hxl⟩ := List.mem_flatten.mp hx
  obtain ⟨blk, hblk, hleq⟩ := List.mem_map.mp hl
  rcases hsub blk x (by rw [← hleq] at hxl; exact hxl) with h | h
  · left
    rw [allRefIds_eq]
    exact List.mem_flatten.mpr ⟨blockRefIds blk, List.mem_map_of_mem _ hblk, h⟩
  · right
    exact h

theorem refIds_subst (t : Terminator) (o n : Nat) :
    (t.substUses o n).refIds = (t.refIds).map (substVal o n) := by
  cases t with
  | br d a =>
    unfold Terminator.substUses Terminator.refIds
    dsimp only
    rw [List.map_map, List.map_map]
    rfl
  | condBr c td ta fd fa =>
    unfold Terminator.substUses Terminator.refIds
    dsimp only
    simp only [List.map_cons, List.map_append, List.map_map]
    rfl
  | other ops => rfl

theorem blockRefIds_subst (blk : Block) (o n : Nat) :
    blockRefIds (blk.substUses o n) = (blockRefIds blk).map (substVal o n) := by
  unfold blockRefIds Block.substUses
  dsimp only
  rw [List.map_append, refIds_subst]
  congr 1
  rw [List.map_flatten, List.map_map, List.map_map]
  congr 1

theorem allRefIds_rauw (st : IRState) (o n : Nat) :
    allRefIds (st.rauw o n) = (allRefIds st).map (substVal o n) := by
  rw [allRefIds_eq, allRefIds_eq st, List.map_flatten]
  show ((st.blocks.map (fun blk => blk.substUses o n)).map blockRefIds).flatten = _
  rw [List.map_map, List.map_map]
  congr 1
  refine List.map_congr_left (fun blk _ => ?_)
  simp only [Function.comp_apply]
  exact blockRefIds_subst blk o n

theorem refs_rauw_ne (st : IRState) (o n : Nat) (hne : n ≠ o) :
    ∀ v ∈ allRefIds (st.rauw o n), v ≠ o := by
  intro v hv
  rw [allRefIds_rauw] at hv
  obtain ⟨x, _, hveq⟩ := List.mem_map.mp hv
  unfold substVal at hveq
  by_cases hx : x = o
  · rw [if_pos hx] at hveq
    rw [← hveq]
    exact hne
  · rw [if_neg hx] at hveq
    rw [← hveq]
    exact hx

theorem slot_val_mem_refIds (t : Terminator) (b : Nat) (s : Slot) (h : s ∈ t.slotsTo b) :
    s.val ∈ t.refIds := by
  cases t with
  | br d a =>
    unfold Terminator.slotsTo at h
    unfold Terminator.refIds
    dsimp only at h ⊢
    by_cases hd : d = b
    · rw [if_pos hd] at h
      exact List.mem_map_of_mem _ h
    · rw [if_neg hd] at h
      cases h
  | condBr c td ta fd fa =>
    unfold Terminator.slotsTo at h
    unfold Terminator.refIds
    dsimp only at h ⊢
    by_cases h1 : td = b
    · rw [if_pos h1] at h
      exact List.mem_cons_of_mem _ (List.mem_append_left _ (List.mem_map_of_mem _ h))
    · rw [if_neg h1] at h
      by_cases h2 : fd = b
      · rw [if_pos h2] at h
        exact List.mem_cons_of_mem _ (List.mem_append_right _ (List.mem_map_of_mem _ h))
      · rw [if_neg h2] at h
        cases h
  | other ops =>
    cases h

theorem slotVal_mem_allRefIds (st : IRState) (p b idx : Nat) (s : Slot)
    (h : incomingSlot st p b idx = some s) : s.val ∈ allRefIds st := by
  unfold incomingSlot at h
  cases hfb : findBlock st p with
  | none => rw [hfb] at h; cases h
  | some pb =>
    rw [hfb] at h
    simp only [Option.some_bind] at h
    have hmem : s ∈ pb.term.slotsTo b := List.getElem?_mem h
    have hval : s.val ∈ pb.term.refIds := slot_val_mem_refIds pb.term b s hmem
    rw [allRefIds_eq]
    refine List.mem_flatten.mpr ⟨blockRefIds pb, ?_, ?_⟩
    · exact List.mem_map_of_mem _ (List.mem_of_find?_eq_some hfb)
    · exact List.mem_append_right _ hval

theorem refs_destroy_mem (st : IRState) (p v : Nat) :
    ∀ x ∈ allRefIds (st.insertDestroyBefore p v), x ∈ allRefIds st ∨ x = v := by
  refine allRefIds_mem_of_map st _
    (mapBlockFn p (fun bl => { bl with insts := bl.insts ++ [destroyInstOf st v] })) rfl
    (fun x => x = v) (fun blk x hx => ?_)
  unfold mapBlockFn at hx
  by_cases h : blk.id = p
  · rw [if_pos h] at hx
    unfold blockRefIds at hx
    simp only [List.map_append, List.flatten_append] at hx
    rcases List.mem_append.mp hx with h1 | h2
    · rcases List.mem_append.mp h1 with h3 | h4
      · exact Or.inl (List.mem_append_left _ h3)
      · right
        simp only [List.map_cons, List.map_nil, List.flatten_cons, List.flatten_nil,
          List.append_nil] at h4
        unfold destroyInstOf at h4
        simpa using h4
    · exact Or.inl (List.mem_append_right _ h2)
  · rw [if_neg h] at hx
    exact Or.inl hx

theorem dropSlot_refIds_subset (t : Terminator) (b idx : Nat) :
    ∀ x ∈ (t.dropSlotTo b idx).refIds, x ∈ t.refIds := by
  intro x hx
  cases t with
  | br d a =>
    unfold Terminator.dropSlotTo at hx
    dsimp only at hx
    by_cases hd : d = b
    · rw [if_pos hd] at hx
      unfold Terminator.refIds at hx ⊢
      exact ((List.eraseIdx_sublist a idx).map (fun s => s.val)).subset hx
    · rw [if_neg hd] at hx
      exact hx
  | condBr c td ta fd fa =>
    unfold Terminator.dropSlotTo at hx
    dsimp only at hx
    unfold Terminator.refIds at hx ⊢
    rcases List.mem_cons.mp hx with h1 | h2
    · exact List.mem_cons.mpr (Or.inl h1)
    · refine List.mem_cons.mpr (Or.inr ?_)
      rcases List.mem_append.mp h2 with h3 | h4
      · refine List.mem_append_left _ ?_
        by_cases h5 : td = b
        · rw [if_pos h5] at h3
          exact ((List.eraseIdx_sublist ta idx).map (fun s => s.val)).subset h3
        · rw [if_neg h5] at h3
          exact h3
      · refine List.mem_append_right _ ?_
        by_cases h5 : fd = b
        · rw [if_pos h5] at h4
          exact ((List.eraseIdx_sublist fa idx).map (fun s => s.val)).subset h4
        · rw [if_neg h5] at h4
          exact h4
  | other ops => exact hx

theorem refs_erase_mem (st : IRState) (b idx : Nat) :
    ∀ x ∈ allRefIds (erasePhiArg st b idx), x ∈ allRefIds st := by
  have h := allRefIds_mem_of_map st _ (eraseBlockFn b idx) (erasePhiArg_blocks st b idx)
    (fun _ => False) (fun blk x hx => ?_)
  · intro x hx
    rcases h x hx with h1 | h2
    · exact h1
    · cases h2
  · unfold eraseBlockFn at hx
    dsimp only at hx
    left
    by_cases hid : blk.id = b
    · simp only [hid, if_true] at hx
      unfold blockRefIds at hx ⊢
      dsimp only at hx
      rcases List.mem_append.mp hx with h1 | h2
      · exact List.mem_append_left _ h1
      · exact List.mem_append_right _ (dropSlot_refIds_subset blk.term b idx x h2)
    · simp only [hid, if_false] at hx
      unfold blockRefIds at hx ⊢
      dsimp only at hx
      rcases List.mem_append.mp hx with h1 | h2
      · exact List.mem_append_left _ h1
      · exact List.mem_append_right _ (dropSlot_refIds_subset blk.term b idx x h2)

theorem refs_ne_destroyFold (b idx a : Nat) :
    ∀ (ps : List Nat) (st : IRState), (∀ v ∈ allRefIds st, v ≠ a) →
      ∀ v ∈ allRefIds ((ps.foldl (fun s p => destroyFoldStep s b idx p) st)), v ≠ a := by
  intro ps
  induction ps with
  | nil => intro st h; exact h
  | cons p ps ih =>
    intro st h
    rw [List.foldl_cons]
    refine ih (destroyFoldStep st b idx p) ?_
    intro v hv
    cases hslot : incomingSlot st p b idx with
    | none =>
      rw [destroyFoldStep_none st b idx p hslot] at hv
      exact h v hv
    | some s =>
      by_cases hlt : s.ltEnd
      · rw [destroyFoldStep_destroy st b idx p s hslot hlt] at hv
        rcases refs_destroy_mem st p s.val v hv with h1 | h2
        · exact h v h1
        · rw [h2]
          exact h s.val (slotVal_mem_allRefIds st p b idx s hslot)
      · simp only [Bool.not_eq_true] at hlt
        rw [destroyFoldStep_skip st b idx p s hslot hlt] at hv
        exact h v hv

/-! ### The Owned x Owned merge, step by step (claim C2) -/

theorem destroyEvsFor_cons (st : IRState) (b idx o c p : Nat) (ps : List Nat) (n : Nat) :
    destroyEvsFor st b idx o c (p :: ps) n =
      match incomingSlot st p b idx with
      | some s =>
        if s.ltEnd then
          Event.insertedDestroy n (substVal o c s.val) :: destroyEvsFor st b idx o c ps (n + 1)
        else destroyEvsFor st b idx o c ps n
      | none => destroyEvsFor st b idx o c ps n := rfl

theorem destroyEvsPlain_eq_evsFor (stA stB : IRState) (b idx o c : Nat)
    (hs : ∀ p, incomingSlot stA p b idx =
      (incomingSlot stB p b idx).map (fun s => s.subst o c)) :
    ∀ (ps : List Nat) (n : Nat),
      destroyEvsPlain stA b idx ps n = destroyEvsFor stB b idx o c ps n := by
  intro ps
  induction ps with
  | nil => intro n; rfl
  | cons p ps ih =>
    intro n
    rw [destroyEvsPlain_cons, destroyEvsFor_cons, hs p]
    cases incomingSlot stB p b idx with
    | none => exact ih n
    | some s =>
      simp only [Option.map_some']
      show (if (s.subst o c).ltEnd then
            Event.insertedDestroy n ((s.subst o c).val) :: destroyEvsPlain stA b idx ps (n + 1)
          else destroyEvsPlain stA b idx ps n) = _
      by_cases hlt : s.ltEnd
      · have h2 : (s.subst o c).ltEnd = true := hlt
        rw [if_pos h2, if_pos hlt, ih (n + 1)]
        rfl
      · have h2 : ¬ ((s.subst o c).ltEnd = true) := hlt
        rw [if_neg h2, if_neg hlt]
        exact ih n

theorem incomingSlot_copy_rauw (st : IRState) (bb cc o nn p b idx : Nat) :
    incomingSlot (((st.createCopyFront bb cc).1).rauw o nn) p b idx =
      (incomingSlot st p b idx).map (fun s => s.subst o nn) := by
  rw [incomingSlot_rauw, incomingSlot_copy]

theorem numArgs_of_argsAt (st : IRState) (q : Nat) (l : List Arg)
    (h : argsAt st q = some l) : numArgs st q = l.length := by
  unfold argsAt at h
  unfold numArgs
  cases hfb : findBlock st q with
  | none => rw [hfb] at h; cases h
  | some blk =>
    rw [hfb] at h
    simp only [Option.map_some'] at h
    show blk.args.length = l.length
    rw [Option.some.inj h]

theorem getArg_of_argsAt (st : IRState) (q : Nat) (l : List Arg)
    (h : argsAt st q = some l) (i : Nat) : getArg st q i = l[i]? := by
  unfold argsAt at h
  unfold getArg
  cases hfb : findBlock st q with
  | none => rw [hfb] at h; cases h
  | some blk =>
    rw [hfb] at h
    simp only [Option.map_some'] at h
    simp only [Option.some_bind]
    rw [Option.some.inj h]

theorem eraseOwnedPhiArg_phi (st : IRState) (b idx : Nat) (a : Arg)
    (hg : getArg st b idx = some a) (hphi : isPhi st a.id = true) :
    eraseOwnedPhiArg st b idx =
      erasePhiArg ((predsList st b).foldl (fun s p => destroyFoldStep s b idx p) st) b idx := by
  unfold eraseOwnedPhiArg
  rw [hg]
  show erasePhiArg
      (if isPhi st a.id then
        (predsList st b).foldl (fun s p => destroyFoldStep s b idx p) st
      else st) b idx = _
  rw [if_pos hphi]

theorem mergeAt_owned_owned (st : IRState) (b : Nat) (A1 A2 : Arg)
    (hargs : argsAt st b = some [A1, A2])
    (hho : st.hasOwnership = true)
    (ho1 : A1.ownership = .owned) (ho2 : A2.ownership = .owned)
    (hphi2 : isPhi st A2.id = true) :
    mergeAt st b 0 1 =
      erasePhiArg
        ((predsList st b).foldl (fun s p => destroyFoldStep s b 1 p)
          (((st.createCopyFront b A1.id).1).rauw A2.id st.nextId)) b 1 := by
  have hg0 : getArg st b 0 = some A1 := by rw [getArg_of_argsAt st b _ hargs 0]; rfl
  have hg1 : getArg st b 1 = some A2 := by rw [getArg_of_argsAt st b _ hargs 1]; rfl
  have hargs2 : argsAt (((st.createCopyFront b A1.id).1).rauw A2.id st.nextId) b
      = some [A1, A2] := by
    rw [argsAt_rauw, argsAt_copy]
    exact hargs
  have hg2 : getArg (((st.createCopyFront b A1.id).1).rauw A2.id st.nextId) b 1
      = some A2 := by
    rw [getArg_of_argsAt _ b _ hargs2 1]
    rfl
  have hphi2' : isPhi (((st.createCopyFront b A1.id).1).rauw A2.id st.nextId) A2.id = true := by
    rw [isPhi_rauw, isPhi_copy]
    exact hphi2
  unfold mergeAt
  rw [hg0, hg1]
  dsimp only
  rw [if_pos hho, if_pos ⟨ho1, ho2⟩]
  show eraseOwnedPhiArg
      (((st.createCopyFront b A1.id).1).rauw A2.id ((st.createCopyFront b A1.id).2)) b 1 = _
  rw [copyId_eq]
  rw [eraseOwnedPhiArg_phi _ b 1 A2 hg2 hphi2']
  rw [predsList_rauw, predsList_copy]

theorem oaLoop_succ (b fuel : Nat) (st : IRState) (i j combos : Nat) (changed : Bool) :
    oaLoop b (fuel + 1) st i j combos changed =
      if i < numArgs st b then
        if j < numArgs st b then
          if 48 < combos + 1 then (st, changed)
          else
            match getArg st b i, getArg st b j with
            | some a1, some a2 =>
              if ¬ (isPhi st a1.id ∧ isPhi st a2.id) then
                oaLoop b fuel st i j (combos + 1) changed
              else if valuesAreEqual st a1.id a2.id then
                oaLoop b fuel (mergeAt st b i j) i j (combos + 1) true
              else oaLoop b fuel st i (j + 1) (combos + 1) changed
            | _, _ => oaLoop b fuel st i (j + 1) (combos + 1) changed
        else oaLoop b fuel st (i + 1) (i + 2) combos changed
      else (st, changed) := rfl

/-- C2: when ownership tracking is active and two phi arguments of the
same block are proven equal, both Owned, the merge performs exactly these
steps in order: a copy of a1 is created, every use of a2 is redirected to
the copy, one destroy is inserted at each lifetime-ending incoming phi
operand of a2, and a2 is erased from the block argument list; afterwards
no value reference anywhere in the function mentions a2. -/
theorem owned_owned_merge_steps (st : IRState) (b : Nat) (A1 A2 : Arg) (blk : Block)
    (hwf : wfIds st)
    (hb : findBlock st b = some blk) (hargs : blk.args = [A1, A2])
    (hho : st.hasOwnership = true)
    (ho1 : A1.ownership = .owned) (ho2 : A2.ownership = .owned)
    (hphi1 : isPhi st A1.id = true) (hphi2 : isPhi st A2.id = true)
    (heq : valuesAreEqual st A1.id A2.id = true) :
    (optimizeArgs st b).2 = true ∧
    (optimizeArgs st b).1.events = st.events ++
      (Event.createdCopy st.nextId A1.id :: Event.redirected A2.id st.nextId ::
        (destroyEvsFor st b 1 A2.id st.nextId (predsList st b) (st.nextId + 1) ++
          [Event.erasedArg b A2.id])) ∧
    argsAt (optimizeArgs st b).1 b = some [A1] ∧
    (∀ v ∈ allRefIds (optimizeArgs st b).1, v ≠ A2.id) := by
  have hargsAt : argsAt st b = some [A1, A2] := by
    unfold argsAt
    rw [hb, Option.map_some', hargs]
  have hg0 : getArg st b 0 = some A1 := by rw [getArg_of_argsAt st b _ hargsAt 0]; rfl
  have hg1 : getArg st b 1 = some A2 := by rw [getArg_of_argsAt st b _ hargsAt 1]; rfl
  have hargs2 : argsAt (((st.createCopyFront b A1.id).1).rauw A2.id st.nextId) b
      = some [A1, A2] := by
    rw [argsAt_rauw, argsAt_copy]
    exact hargsAt
  have hargsD : argsAt ((predsList st b).foldl (fun s p => destroyFoldStep s b 1 p)
      (((st.createCopyFront b A1.id).1).rauw A2.id st.nextId)) b = some [A1, A2] := by
    rw [argsAt_destroyFold st b 1]
    exact hargs2
  have hg3 : getArg ((predsList st b).foldl (fun s p => destroyFoldStep s b 1 p)
      (((st.createCopyFront b A1.id).1).rauw A2.id st.nextId)) b 1 = some A2 := by
    rw [getArg_of_argsAt _ b _ hargsD 1]
    rfl
  have hargs3 : argsAt (erasePhiArg ((predsList st b).foldl (fun s p => destroyFoldStep s b 1 p)
      (((st.createCopyFront b A1.id).1).rauw A2.id st.nextId)) b 1) b = some [A1] := by
    rw [argsAt_erase_self, hargsD]
    rfl
  have hmerge := mergeAt_owned_owned st b A1 A2 hargsAt hho ho1 ho2 hphi2
  have hev2 : ((((st.createCopyFront b A1.id).1).rauw A2.id st.nextId)).events =
      (st.events ++ [Event.createdCopy st.nextId A1.id]) ++ [Event.redirected A2.id st.nextId] := by
    rw [events_rauw, events_copy]
  have hni2 : ((((st.createCopyFront b A1.id).1).rauw A2.id st.nextId)).nextId =
      st.nextId + 1 := by
    rw [nextId_rauw, nextId_copy]
  have hplain : destroyEvsPlain (((st.createCopyFront b A1.id).1).rauw A2.id st.nextId) b 1
      (predsList st b) (st.nextId + 1) =
      destroyEvsFor st b 1 A2.id st.nextId (predsList st b) (st.nextId + 1) :=
    destroyEvsPlain_eq_evsFor _ st b 1 A2.id st.nextId
      (fun p => incomingSlot_copy_rauw st b A1.id A2.id st.nextId p b 1) (predsList st b)
      (st.nextId + 1)
  have hevD := (destroyFold_spec b 1 (predsList st b)
    (((st.createCopyFront b A1.id).1).rauw A2.id st.nextId)).1
  have hevE := events_erase ((predsList st b).foldl (fun s p => destroyFoldStep s b 1 p)
    (((st.createCopyFront b A1.id).1).rauw A2.id st.nextId)) b 1 A2 hg3
  have hA2mem : A2.id ∈ allArgIds st := by
    unfold allArgIds
    refine List.mem_flatten.mpr ⟨blk.args.map (fun a => a.id), ?_, ?_⟩
    · exact List.mem_map_of_mem _ (List.mem_of_find?_eq_some hb)
    · rw [hargs]; simp
  have hA2lt : A2.id < st.nextId :=
    hwf.2.2.1 A2.id (List.mem_append_left _ hA2mem)
  have hcidne : st.nextId ≠ A2.id := by omega
  have hrefs2 : ∀ v ∈ allRefIds (((st.createCopyFront b A1.id).1).rauw A2.id st.nextId),
      v ≠ A2.id :=
    refs_rauw_ne _ A2.id st.nextId hcidne
  have hrefsD := refs_ne_destroyFold b 1 A2.id (predsList st b)
    (((st.createCopyFront b A1.id).1).rauw A2.id st.nextId) hrefs2
  have hrefsE : ∀ v ∈ allRefIds (erasePhiArg ((predsList st b).foldl
      (fun s p => destroyFoldStep s b 1 p)
      (((st.createCopyFront b A1.id).1).rauw A2.id st.nextId)) b 1), v ≠ A2.id :=
    fun v hv => hrefsD v (refs_erase_mem _ b 1 v hv)
  have hn : numArgs st b = 2 := numArgs_of_argsAt st b [A1, A2] hargsAt
  have hn3 : numArgs (erasePhiArg ((predsList st b).foldl (fun s p => destroyFoldStep s b 1 p)
      (((st.createCopyFront b A1.id).1).rauw A2.id st.nextId)) b 1) b = 1 :=
    numArgs_of_argsAt _ b [A1] hargs3
  have hfuel : numArgs st b + 60 = 61 + 1 := by rw [hn]
  unfold optimizeArgs
  rw [hfuel, oaLoop_succ, hn]
  rw [if_pos (by omega : (0:Nat) < 2), if_pos (by omega : (1:Nat) < 2),
    if_neg (by omega : ¬ (48 < 0 + 1)), hg0, hg1]
  dsimp only
  rw [if_neg (not_not_intro ⟨hphi1, hphi2⟩), if_pos heq, hmerge]
  rw [show (61:Nat) = 60 + 1 from rfl, oaLoop_succ, hn3]
  rw [if_pos (by omega : (0:Nat) < 1), if_neg (by omega : ¬ ((1:Nat) < 1))]
  rw [show (60:Nat) = 59 + 1 from rfl, oaLoop_succ, hn3]
  rw [if_neg (by omega : ¬ ((1:Nat) < 1))]
  refine ⟨rfl, ?_, hargs3, hrefsE⟩
  show (erasePhiArg ((predsList st b).foldl (fun s p => destroyFoldStep s b 1 p)
      (((st.createCopyFront b A1.id).1).rauw A2.id st.nextId)) b 1).events = _
  rw [hevE, hevD, hev2, hni2, hplain]
  simp [List.append_assoc]

/-- Witness for C2 at a concrete input: two equal Owned phi arguments
with a lifetime-ending incoming operand. -/
theorem owned_owned_merge_steps_witness :
    (optimizeArgs exOwnedPair 1).2 = true ∧
    (optimizeArgs exOwnedPair 1).1.events = exOwnedPair.events ++
      (Event.createdCopy 20 10 :: Event.redirected 11 20 ::
        (destroyEvsFor exOwnedPair 1 1 11 20 (predsList exOwnedPair 1) 21 ++
          [Event.erasedArg 1 11])) ∧
    argsAt (optimizeArgs exOwnedPair 1).1 1 = some [⟨10, 0, .owned⟩] ∧
    (∀ v ∈ allRefIds (optimizeArgs exOwnedPair 1).1, v ≠ 11) :=
  owned_owned_merge_steps exOwnedPair 1 ⟨10, 0, .owned⟩ ⟨11, 0, .owned⟩
    { id := 1, args := [⟨10, 0, .owned⟩, ⟨11, 0, .owned⟩], insts := [], term := .other [] }
    (by decide) (by decide) (by decide) (by decide) (by decide) (by decide) (by decide)
    (by decide) (by decide)

/-! ### Phi-expansion discovery: field mismatch aborts (claim C4) -/

theorem processUse_collected_mono (st : IRState) (acc acc1 : List Nat × Option (Nat × Nat)) (u : UseSite)
    (h : processUse st acc u = some acc1) : acc.1 <+: acc1.1 := by
  cases u with
  | inInst i =>
    unfold processUse at h
    dsimp only at h
    cases hop : i.opcode
    all_goals rw [hop] at h
    all_goals dsimp only at h
    case debugValue =>
      rw [← Option.some.inj h]
    case structExtract f =>
      cases hacc : acc.2
      all_goals rw [hacc] at h
      all_goals dsimp only at h
      case none =>
        rw [← Option.some.inj h]
      case some ft =>
        split at h
        · cases h
        · rw [← Option.some.inj h]
    all_goals cases h
  | inBrSlot dest idx =>
    unfold processUse at h
    dsimp only at h
    cases harg : argIdAt st dest idx
    all_goals rw [harg] at h
    all_goals dsimp only at h
    case none => cases h
    case some d =>
      split at h
      · rw [← Option.some.inj h]
      · rw [← Option.some.inj h]
        exact List.prefix_append _ _
  | inCond => cases h
  | inOther => cases h

theorem processUse_brslot_mem (st : IRState) (acc acc1 : List Nat × Option (Nat × Nat))
    (dest idx d : Nat) (h : processUse st acc (.inBrSlot dest idx) = some acc1)
    (hd : argIdAt st dest idx = some d) : d ∈ acc1.1 := by
  unfold processUse at h
  dsimp only at h
  rw [hd] at h
  dsimp only at h
  split at h
  · rename_i hc
    rw [← Option.some.inj h]
    exact hc
  · rw [← Option.some.inj h]
    simp

theorem processUse_field_stable (st : IRState) (acc acc1 : List Nat × Option (Nat × Nat))
    (u : UseSite) (f t : Nat) (h : processUse st acc u = some acc1)
    (hf : acc.2 = some (f, t)) : ∃ t', acc1.2 = some (f, t') := by
  cases u with
  | inInst i =>
    unfold processUse at h
    dsimp only at h
    cases hop : i.opcode
    all_goals rw [hop] at h
    all_goals dsimp only at h
    case debugValue =>
      exact ⟨t, by rw [← Option.some.inj h]; exact hf⟩
    case structExtract f1 =>
      rw [hf] at h
      dsimp only at h
      split at h
      · cases h
      · rename_i hc
        have hfe : f1 = f := not_not.mp hc
        exact ⟨i.typ, by rw [← Option.some.inj h, hfe]⟩
    all_goals cases h
  | inBrSlot dest idx =>
    unfold processUse at h
    dsimp only at h
    cases harg : argIdAt st dest idx
    all_goals rw [harg] at h
    all_goals dsimp only at h
    case none => cases h
    case some d =>
      split at h
      · exact ⟨t, by rw [← Option.some.inj h]; exact hf⟩
      · exact ⟨t, by rw [← Option.some.inj h]; exact hf⟩
  | inCond => cases h
  | inOther => cases h

theorem processUse_extract_sets (st : IRState) (acc acc1 : List Nat × Option (Nat × Nat))
    (i : Inst) (f : Nat) (h : processUse st acc (.inInst i) = some acc1)
    (hop : i.opcode = .structExtract f) : ∃ t', acc1.2 = some (f, t') := by
  unfold processUse at h
  dsimp only at h
  rw [hop] at h
  dsimp only at h
  cases hacc : acc.2
  all_goals rw [hacc] at h
  all_goals dsimp only at h
  case none => exact ⟨i.typ, by rw [← Option.some.inj h]⟩
  case some ft =>
    split at h
    · cases h
    · exact ⟨i.typ, by rw [← Option.some.inj h]⟩

theorem processUses_collected_mono (st : IRState) :
    ∀ (us : List UseSite) (acc acc2 : List Nat × Option (Nat × Nat)),
      processUses st us acc = some acc2 → acc.1 <+: acc2.1 := by
  intro us
  induction us with
  | nil =>
    intro acc acc2 h
    rw [← Option.some.inj h]
  | cons u us ih =>
    intro acc acc2 h
    unfold processUses at h
    cases hpu : processUse st acc u with
    | none => rw [hpu] at h; cases h
    | some acc1 =>
      rw [hpu] at h
      dsimp only at h
      exact (processUse_collected_mono st acc acc1 u hpu).trans (ih acc1 acc2 h)

theorem processUses_field_stable (st : IRState) :
    ∀ (us : List UseSite) (acc acc2 : List Nat × Option (Nat × Nat)) (f t : Nat),
      processUses st us acc = some acc2 → acc.2 = some (f, t) →
      ∃ t', acc2.2 = some (f, t') := by
  intro us
  induction us with
  | nil =>
    intro acc acc2 f t h hf
    exact ⟨t, by rw [← Option.some.inj h]; exact hf⟩
  | cons u us ih =>
    intro acc acc2 f t h hf
    unfold processUses at h
    cases hpu : processUse st acc u with
    | none => rw [hpu] at h; cases h
    | some acc1 =>
      rw [hpu] at h
      dsimp only at h
      obtain ⟨t1, hf1⟩ := processUse_field_stable st acc acc1 u f t hpu hf
      exact ih acc1 acc2 f t1 h hf1

theorem processUses_mem (st : IRState) :
    ∀ (us : List UseSite) (acc acc2 : List Nat × Option (Nat × Nat)),
      processUses st us acc = some acc2 →
      ∀ (dest idx d : Nat), UseSite.inBrSlot dest idx ∈ us →
        argIdAt st dest idx = some d → d ∈ acc2.1 := by
  intro us
  induction us with
  | nil =>
    intro acc acc2 h dest idx d hmem
    cases hmem
  | cons u us ih =>
    intro acc acc2 h dest idx d hmem harg
    unfold processUses at h
    cases hpu : processUse st acc u with
    | none => rw [hpu] at h; cases h
    | some acc1 =>
      rw [hpu] at h
      dsimp only at h
      rcases List.mem_cons.mp hmem with heq | hmem2
      · have h1 : d ∈ acc1.1 := by
          rw [← heq] at hpu
          exact processUse_brslot_mem st acc acc1 dest idx d hpu harg
        exact (processUses_collected_mono st us acc1 acc2 h).subset h1
      · exact ih acc1 acc2 h dest idx d hmem2 harg

theorem processUses_extract (st : IRState) :
    ∀ (us : List UseSite) (acc acc2 : List Nat × Option (Nat × Nat)),
      processUses st us acc = some acc2 →
      ∀ (i : Inst) (f : Nat), UseSite.inInst i ∈ us → i.opcode = .structExtract f →
        ∃ t', acc2.2 = some (f, t') := by
  intro us
  induction us with
  | nil =>
    intro acc acc2 h i f hmem
    cases hmem
  | cons u us ih =>
    intro acc acc2 h i f hmem hop
    unfold processUses at h
    cases hpu : processUse st acc u with
    | none => rw [hpu] at h; cases h
    | some acc1 =>
      rw [hpu] at h
      dsimp only at h
      rcases List.mem_cons.mp hmem with heq | hmem2
      · have h1 : ∃ t1, acc1.2 = some (f, t1) := by
          rw [← heq] at hpu
          exact processUse_extract_sets st acc acc1 i f hpu hop
        obtain ⟨t1, hf1⟩ := h1
        exact processUses_field_stable st us acc1 acc2 f t1 h hf1
      · exact ih acc1 acc2 h i f hmem2 hop

theorem branchDests_mem (st : IRState) (a d : Nat) (h : d ∈ branchDests st a) :
    ∃ dest idx, UseSite.inBrSlot dest idx ∈ usesOf st a ∧ argIdAt st dest idx = some d := by
  unfold branchDests at h
  obtain ⟨u, hu, hres⟩ := List.mem_filterMap.mp h
  cases u with
  | inInst i => cases hres
  | inBrSlot dest idx => exact ⟨dest, idx, hu, hres⟩
  | inCond => cases hres
  | inOther => cases hres

theorem prefix_get_eq {l1 l2 : List Nat} (h : l1 <+: l2) (i : Nat) (h1 : i < l1.length)
    (h2 : i < l2.length) : l2.get ⟨i, h2⟩ = l1.get ⟨i, h1⟩ := by
  obtain ⟨t, ht⟩ := h
  subst ht
  simp [List.getElem_append_left h1]

theorem discoverLoop_mono (st : IRState) :
    ∀ (fuel : Nat) (collected : List Nat) (idx : Nat) (fld : Option (Nat × Nat))
      (C : List Nat) (f0 t0 : Nat),
      discoverLoop st fuel collected idx fld = some (C, f0, t0) →
      collected <+: C ∧ (∀ f t, fld = some (f, t) → f = f0) := by
  intro fuel
  induction fuel with
  | zero => intro collected idx fld C f0 t0 h; cases h
  | succ n ih =>
    intro collected idx fld C f0 t0 h
    unfold discoverLoop at h
    split at h
    · split at h
      · rename_i acc hpu
        obtain ⟨hpre, hfld⟩ := ih acc.1 (idx + 1) acc.2 C f0 t0 h
        refine ⟨(processUses_collected_mono st _ _ _ hpu).trans hpre, ?_⟩
        intro f t hf
        obtain ⟨t', hf'⟩ := processUses_field_stable st _ _ _ f t hpu hf
        exact hfld f t' hf'
      · cases h
    · split at h
      · rename_i ft
        have hinj := Option.some.inj h
        have h1 : collected = C := congrArg Prod.fst hinj
        have h2 : ft.1 = f0 := congrArg (fun p => p.2.1) hinj
        refine ⟨h1 ▸ List.prefix_refl _, ?_⟩
        intro f t hf
        have hft2 : ft = (f, t) := Option.some.inj hf
        rw [← h2, hft2]
      · cases h

theorem discoverLoop_processed (st : IRState) :
    ∀ (fuel : Nat) (collected : List Nat) (idx : Nat) (fld : Option (Nat × Nat))
      (C : List Nat) (f0 t0 : Nat),
      discoverLoop st fuel collected idx fld = some (C, f0, t0) →
      ∀ (k : Nat) (hk : k < C.length), idx ≤ k →
        (∀ d ∈ branchDests st (C.get ⟨k, hk⟩), d ∈ C) ∧
        (∀ (i : Inst) (f : Nat), UseSite.inInst i ∈ usesOf st (C.get ⟨k, hk⟩) →
          i.opcode = Opcode.structExtract f → f = f0) := by
  intro fuel
  induction fuel with
  | zero => intro collected idx fld C f0 t0 h; cases h
  | succ n ih =>
    intro collected idx fld C f0 t0 h
    unfold discoverLoop at h
    split at h
    · rename_i hlt
      split at h
      · rename_i acc hpu
        intro k hk hik
        by_cases hks : idx + 1 ≤ k
        · exact ih acc.1 (idx + 1) acc.2 C f0 t0 h k hk hks
        · have hkeq : k = idx := by omega
          subst hkeq
          obtain ⟨hprefC, hfld0⟩ := discoverLoop_mono st n acc.1 (k + 1) acc.2 C f0 t0 h
          have hprefA : collected <+: acc.1 := processUses_collected_mono st _ _ _ hpu
          have hpref : collected <+: C := hprefA.trans hprefC
          have hget : C.get ⟨k, hk⟩ = collected.get ⟨k, hlt⟩ := prefix_get_eq hpref k hlt hk
          constructor
          · intro d hd
            rw [hget] at hd
            obtain ⟨dest, sidx, huse, harg⟩ := branchDests_mem st _ d hd
            exact hprefC.subset (processUses_mem st _ _ _ hpu dest sidx d huse harg)
          · intro i f huse hop
            rw [hget] at huse
            obtain ⟨t', hacc⟩ := processUses_extract st _ _ _ hpu i f huse hop
            exact hfld0 f t' hacc
      · cases h
    · rename_i hnlt
      split at h
      · have hC : collected = C := congrArg Prod.fst (Option.some.inj h)
        intro k hk hik
        rw [← hC] at hk
        omega
      · cases h

theorem component_in_collected (st : IRState) (root : Nat) (C : List Nat) (f0 t0 : Nat)
    (hd : discover st root = some (C, f0, t0)) :
    ∀ a, InComponent st root a → a ∈ C := by
  have hmono := discoverLoop_mono st (totalArgCount st + 2) [root] 0 Option.none C f0 t0 hd
  have hproc := discoverLoop_processed st (totalArgCount st + 2) [root] 0 Option.none C f0 t0 hd
  intro a ha
  induction ha with
  | base => exact hmono.1.subset (List.mem_singleton_self root)
  | step hcomp hdest ihmem =>
    obtain ⟨⟨k, hk⟩, hget⟩ := List.get_of_mem ihmem
    have hcl := (hproc k hk (Nat.zero_le k)).1
    rw [hget] at hcl
    exact hcl _ hdest

theorem component_extract_field (st : IRState) (root : Nat) (C : List Nat) (f0 t0 : Nat)
    (hd : discover st root = some (C, f0, t0)) (a f : Nat)
    (ha : InComponent st root a) (hf : hasExtractUse st a f) : f = f0 := by
  obtain ⟨⟨k, hk⟩, hget⟩ := List.get_of_mem (component_in_collected st root C f0 t0 hd a ha)
  obtain ⟨i, huse, hop⟩ := hf
  refine (discoverLoop_processed st (totalArgCount st + 2) [root] 0 Option.none C f0 t0 hd
    k hk (Nat.zero_le k)).2 i f ?_ hop
  rw [hget]
  exact huse

/-- C4: if two arguments of the connected phi component (the
reflexive-transitive closure of the branch-destination relation from the
root) have struct_extract uses of two different fields, phi-expansion
discovery fails and optimizeArg returns the state completely unchanged
with changed = false. -/
theorem field_mismatch_leaves_ir_unchanged (st : IRState) (root a a' f f' : Nat)
    (hca : InComponent st root a) (hca' : InComponent st root a')
    (hf : hasExtractUse st a f) (hf' : hasExtractUse st a' f') (hne : f ≠ f') :
    optimizeArg st root = (st, false) := by
  cases hd : discover st root with
  | none =>
    unfold optimizeArg
    rw [hd]
  | some cft =>
    exfalso
    obtain ⟨C, f0, t0⟩ := cft
    exact hne ((component_extract_field st root C f0 t0 hd a f hca hf).trans
      (component_extract_field st root C f0 t0 hd a' f' hca' hf').symm)

/-- Witness for C4 at a concrete input: a phi argument used by two
struct_extracts of different fields. -/
theorem field_mismatch_leaves_ir_unchanged_witness :
    optimizeArg exMismatch 10 = (exMismatch, false) :=
  field_mismatch_leaves_ir_unchanged exMismatch 10 10 10 1 2 .base .base
    ⟨{ id := 30, opcode := .structExtract 1, operands := [10], typ := 6,
       ownership := .none, memNone := true, isAlloc := false }, by decide, rfl⟩
    ⟨{ id := 31, opcode := .structExtract 2, operands := [10], typ := 7,
       ownership := .none, memNone := true, isAlloc := false }, by decide, rfl⟩
    (by decide)

/-! ### Pushing extractions to the predecessor edges (claim C5) -/

theorem findSome?_congr {α β : Type} (l : List α) (f g : α → Option β)
    (h : ∀ x ∈ l, f x = g x) : l.findSome? f = l.findSome? g := by
  induction l with
  | nil => rfl
  | cons a l ih =>
    rw [List.findSome?_cons, List.findSome?_cons, h a (List.mem_cons_self a l)]
    cases g a with
    | some b => rfl
    | none => exact ih (fun x hx => h x (List.mem_cons_of_mem a hx))

theorem find?_append_none {α : Type} (l1 l2 : List α) (p : α → Bool)
    (h : ∀ x ∈ l2, p x = false) : (l1 ++ l2).find? p = l1.find? p := by
  rw [List.find?_append]
  have h2 : l2.find? p = Option.none :=
    List.find?_eq_none.mpr (fun x hx => by rw [h x hx]; exact Bool.false_ne_true)
  rw [h2]
  cases l1.find? p <;> rfl

theorem findBlock_mapBlock_ne (st : IRState) (p : Nat) (g : Block → Block)
    (hid : ∀ blk, (g blk).id = blk.id) (q : Nat) (hq : q ≠ p) :
    findBlock (st.mapBlock p g) q = findBlock st q := by
  rw [findBlock_of_map st _ (mapBlockFn p g) rfl (mapBlockFn_id p g hid)]
  cases hfb : findBlock st q with
  | none => rfl
  | some blk =>
    have hbid : blk.id = q := by simpa using List.find?_some hfb
    simp only [Option.map_some']
    unfold mapBlockFn
    rw [if_neg (by rw [hbid]; exact hq)]

theorem findBlock_mapBlock_self (st : IRState) (p : Nat) (g : Block → Block)
    (hid : ∀ blk, (g blk).id = blk.id) (pb : Block) (hpb : findBlock st p = some pb) :
    findBlock (st.mapBlock p g) p = some (g pb) := by
  rw [findBlock_of_map st _ (mapBlockFn p g) rfl (mapBlockFn_id p g hid), hpb]
  simp only [Option.map_some']
  unfold mapBlockFn
  rw [if_pos (by simpa using List.find?_some hpb)]

theorem findInst_mapBlock (st : IRState) (p : Nat) (g : Block → Block) (v : Nat)
    (hsame : ∀ blk, (g blk).insts.find? (fun i => i.id = v) =
      blk.insts.find? (fun i => i.id = v)) :
    findInst (st.mapBlock p g) v = findInst st v := by
  unfold findInst IRState.mapBlock
  dsimp only
  rw [List.findSome?_map]
  refine findSome?_congr _ _ _ (fun blk _ => ?_)
  simp only [Function.comp_apply]
  by_cases hid : blk.id = p
  · rw [if_pos hid]
    exact hsame blk
  · rw [if_neg hid]

theorem findArg_mapBlock (st : IRState) (p : Nat) (g : Block → Block)
    (hid : ∀ blk, (g blk).id = blk.id) (hargs : ∀ blk, (g blk).args = blk.args) (v : Nat) :
    findArg (st.mapBlock p g) v = findArg st v :=
  findArg_of_map_pres st _ (mapBlockFn p g) rfl (mapBlockFn_id p g hid)
    (fun blk => by
      unfold mapBlockFn
      split
      · exact hargs blk
      · rfl) v

theorem typeOf_congr (st1 st2 : IRState) (v : Nat) (ha : findArg st1 v = findArg st2 v)
    (hi : findInst st1 v = findInst st2 v) : typeOf st1 v = typeOf st2 v := by
  unfold typeOf
  rw [ha, hi]

theorem appendInst_eq_mapBlock (st : IRState) (p : Nat) (i : Inst) :
    st.appendInst p i = st.mapBlock p (fun blk => { blk with insts := blk.insts ++ [i] }) := rfl

theorem setSlotVal_getElem (l : List Slot) :
    ∀ (idx v : Nat) (s : Slot), l[idx]? = some s →
      (setSlotVal l idx v)[idx]? = some { s with val := v } := by
  induction l with
  | nil =>
    intro idx v s h
    rw [List.getElem?_nil] at h
    cases h
  | cons a l ih =>
    intro idx v s h
    cases idx with
    | zero =>
      rw [List.getElem?_cons_zero] at h
      rw [show setSlotVal (a :: l) 0 v = { a with val := v } :: l from rfl,
        List.getElem?_cons_zero, Option.some.inj h]
    | succ k =>
      rw [List.getElem?_cons_succ] at h
      rw [show setSlotVal (a :: l) (k + 1) v = a :: setSlotVal l k v from rfl,
        List.getElem?_cons_succ]
      exact ih k v s h

theorem slotsTo_setSlotTo (t : Terminator) (b idx v : Nat) :
    (t.setSlotTo b idx v).slotsTo b = setSlotVal (t.slotsTo b) idx v := by
  cases t with
  | br d a =>
    by_cases hd : d = b <;>
      simp [Terminator.setSlotTo, Terminator.slotsTo, hd, setSlotVal]
  | condBr c td ta fd fa =>
    by_cases h1 : td = b <;> by_cases h2 : fd = b <;>
      simp [Terminator.setSlotTo, Terminator.slotsTo, h1, h2, setSlotVal]
  | other ops => simp [Terminator.setSlotTo, Terminator.slotsTo, setSlotVal]

theorem incomingSlot_findBlock (st : IRState) (p b idx : Nat) (s : Slot)
    (h : incomingSlot st p b idx = some s) :
    ∃ pb, findBlock st p = some pb ∧ (pb.term.slotsTo b)[idx]? = some s := by
  unfold incomingSlot at h
  cases hfb : findBlock st p with
  | none => rw [hfb] at h; cases h
  | some pb =>
    rw [hfb] at h
    exact ⟨pb, rfl, by simpa using h⟩

theorem extractFoldStep_none2 (st1 : IRState) (b idx f nt p : Nat)
    (h : incomingSlot st1 p b idx = Option.none) :
    extractFoldStep st1 b idx f nt p = st1 := by
  unfold extractFoldStep
  rw [h]

theorem extractFoldStep_match (st1 : IRState) (b idx f nt p : Nat) (s : Slot)
    (h : incomingSlot st1 p b idx = some s) (ht : typeOf st1 s.val = nt) :
    extractFoldStep st1 b idx f nt p = st1 := by
  unfold extractFoldStep
  rw [h]
  dsimp only
  rw [if_pos ht]

/-- The combined effect of one mismatched predecessor edge: a fresh
struct_extract of the required field is appended to that predecessor's
instructions, the branch slot is rewired to it, the event is logged, and
nothing else changes. -/
theorem extract_step_all (st1 : IRState) (b idx f newType p : Nat) (s : Slot)
    (h : incomingSlot st1 p b idx = some s) (ht : ¬ typeOf st1 s.val = newType) :
    ∃ st2, extractFoldStep st1 b idx f newType p = st2 ∧
      st2.events = st1.events ++ [Event.createdExtract st1.nextId s.val f] ∧
      st2.nextId = st1.nextId + 1 ∧
      (∀ q, q ≠ p → findBlock st2 q = findBlock st1 q) ∧
      (∀ v, v < st1.nextId → typeOf st2 v = typeOf st1 v) ∧
      (∀ pb, findBlock st1 p = some pb →
        findBlock st2 p = some { pb with
          insts := pb.insts ++ [pushedExtractInst st1.nextId f newType s.val]
          term := pb.term.setSlotTo b idx st1.nextId }) := by
  refine ⟨{ ((st1.appendInst p (extractInstOf st1 f newType s.val)).mapBlock p
      (fun blk => { blk with term := blk.term.setSlotTo b idx st1.nextId })) with
    nextId := st1.nextId + 1
    events := ((st1.appendInst p (extractInstOf st1 f newType s.val)).mapBlock p
      (fun blk => { blk with term := blk.term.setSlotTo b idx st1.nextId })).events ++
      [Event.createdExtract st1.nextId s.val f] }, ?_, rfl, rfl, ?_, ?_, ?_⟩
  · unfold extractFoldStep
    rw [h]
    dsimp only
    rw [if_neg ht]
  · intro q hq
    show findBlock ((st1.appendInst p (extractInstOf st1 f newType s.val)).mapBlock p
      (fun blk => { blk with term := blk.term.setSlotTo b idx st1.nextId })) q = _
    rw [findBlock_mapBlock_ne (st1.appendInst p (extractInstOf st1 f newType s.val)) p
        (fun blk => { blk with term := blk.term.setSlotTo b idx st1.nextId })
        (fun blk => rfl) q hq,
      appendInst_eq_mapBlock,
      findBlock_mapBlock_ne st1 p
        (fun blk => { blk with insts := blk.insts ++ [extractInstOf st1 f newType s.val] })
        (fun blk => rfl) q hq]
  · intro v hv
    show typeOf ((st1.appendInst p (extractInstOf st1 f newType s.val)).mapBlock p
      (fun blk => { blk with term := blk.term.setSlotTo b idx st1.nextId })) v = _
    refine typeOf_congr _ _ v ?_ ?_
    · rw [findArg_mapBlock (st1.appendInst p (extractInstOf st1 f newType s.val)) p
          (fun blk => { blk with term := blk.term.setSlotTo b idx st1.nextId })
          (fun blk => rfl) (fun blk => rfl) v,
        appendInst_eq_mapBlock,
        findArg_mapBlock st1 p
          (fun blk => { blk with insts := blk.insts ++ [extractInstOf st1 f newType s.val] })
          (fun blk => rfl) (fun blk => rfl) v]
    · rw [findInst_mapBlock (st1.appendInst p (extractInstOf st1 f newType s.val)) p
          (fun blk => { blk with term := blk.term.setSlotTo b idx st1.nextId })
          v (fun blk => rfl),
        appendInst_eq_mapBlock,
        findInst_mapBlock st1 p
          (fun blk => { blk with insts := blk.insts ++ [extractInstOf st1 f newType s.val] })
          v ?_]
      intro blk
      refine find?_append_none _ _ _ (fun x hx => ?_)
      have hxe : x = extractInstOf st1 f newType s.val := by simpa using hx
      rw [hxe]
      show decide ((extractInstOf st1 f newType s.val).id = v) = false
      exact decide_eq_false (by
        show ¬ (st1.nextId = v)
        omega)
  · intro pb hpb
    show findBlock ((st1.appendInst p (extractInstOf st1 f newType s.val)).mapBlock p
      (fun blk => { blk with term := blk.term.setSlotTo b idx st1.nextId })) p = _
    have h1 : findBlock (st1.appendInst p (extractInstOf st1 f newType s.val)) p =
        some { pb with insts := pb.insts ++ [extractInstOf st1 f newType s.val] } := by
      rw [appendInst_eq_mapBlock]
      exact findBlock_mapBlock_self st1 p
        (fun blk => { blk with insts := blk.insts ++ [extractInstOf st1 f newType s.val] })
        (fun blk => rfl) pb hpb
    exact findBlock_mapBlock_self (st1.appendInst p (extractInstOf st1 f newType s.val)) p
      (fun blk => { blk with term := blk.term.setSlotTo b idx st1.nextId })
      (fun blk => rfl) _ h1

theorem extractEvsFor_cons (st : IRState) (b idx f newType p : Nat) (ps : List Nat) (n : Nat) :
    extractEvsFor st b idx f newType (p :: ps) n =
      match incomingSlot st p b idx with
      | some s =>
        if typeOf st s.val = newType then extractEvsFor st b idx f newType ps n
        else Event.createdExtract n s.val f :: extractEvsFor st b idx f newType ps (n + 1)
      | none => extractEvsFor st b idx f newType ps n := rfl

theorem extractFold_spec (st : IRState) (b idx f newType : Nat)
    (hsval : ∀ p s, incomingSlot st p b idx = some s → s.val < st.nextId) :
    ∀ (ps : List Nat), ps.Nodup → ∀ (st1 : IRState),
      (∀ q ∈ ps, findBlock st1 q = findBlock st q) →
      (∀ v, v < st.nextId → typeOf st1 v = typeOf st v) →
      st.nextId ≤ st1.nextId →
      ((ps.foldl (fun acc q => extractFoldStep acc b idx f newType q) st1).events =
        st1.events ++ extractEvsFor st b idx f newType ps st1.nextId) ∧
      (∀ q, q ∉ ps →
        findBlock (ps.foldl (fun acc q => extractFoldStep acc b idx f newType q) st1) q =
          findBlock st1 q) ∧
      (∀ p ∈ ps, ∀ s, incomingSlot st p b idx = some s →
        (typeOf st s.val = newType →
          findBlock (ps.foldl (fun acc q => extractFoldStep acc b idx f newType q) st1) p =
            findBlock st p) ∧
        (typeOf st s.val ≠ newType →
          ∃ pb, findBlock st p = some pb ∧
            ∃ n, findBlock (ps.foldl (fun acc q => extractFoldStep acc b idx f newType q) st1) p =
              some { pb with
                insts := pb.insts ++ [pushedExtractInst n f newType s.val]
                term := pb.term.setSlotTo b idx n })) := by
  intro ps
  induction ps with
  | nil =>
    intro hnd st1 H4 H2 H3
    refine ⟨by simp [extractEvsFor], fun q hq => rfl, fun p hp => ?_⟩
    cases hp
  | cons p ps ih =>
    intro hnd st1 H4 H2 H3
    obtain ⟨hp_notin, hnd'⟩ := List.nodup_cons.mp hnd
    have hfb1 : findBlock st1 p = findBlock st p := H4 p (List.mem_cons_self p ps)
    have hslot1 : incomingSlot st1 p b idx = incomingSlot st p b idx := by
      unfold incomingSlot
      rw [hfb1]
    rw [List.foldl_cons]
    cases hs : incomingSlot st p b idx with
    | none =>
      rw [extractFoldStep_none2 st1 b idx f newType p (by rw [hslot1]; exact hs)]
      obtain ⟨hE, hF, hP⟩ := ih hnd' st1 (fun q hq => H4 q (List.mem_cons_of_mem p hq)) H2 H3
      refine ⟨?_, ?_, ?_⟩
      · rw [hE, extractEvsFor_cons, hs]
      · intro q hq
        have hq2 : q ∉ ps := fun hc => hq (List.mem_cons_of_mem p hc)
        exact hF q hq2
      · intro q hq s hsq
        rcases List.mem_cons.mp hq with heq | hmem
        · subst heq
          rw [hs] at hsq
          cases hsq
        · exact hP q hmem s hsq
    | some s =>
      by_cases ht : typeOf st s.val = newType
      · have ht1 : typeOf st1 s.val = newType := by
          rw [H2 s.val (hsval p s hs)]
          exact ht
        rw [extractFoldStep_match st1 b idx f newType p s (by rw [hslot1]; exact hs) ht1]
        obtain ⟨hE, hF, hP⟩ := ih hnd' st1 (fun q hq => H4 q (List.mem_cons_of_mem p hq)) H2 H3
        refine ⟨?_, ?_, ?_⟩
        · rw [hE, extractEvsFor_cons, hs]
          dsimp only
          rw [if_pos ht]
        · intro q hq
          exact hF q (fun hc => hq (List.mem_cons_of_mem p hc))
        · intro q hq s' hsq
          rcases List.mem_cons.mp hq with heq | hmem
          · subst heq
            rw [hs] at hsq
            have hss : s' = s := (Option.some.inj hsq).symm
            subst hss
            refine ⟨fun _ => ?_, fun hne => absurd ht hne⟩
            rw [hF q hp_notin]
            exact hfb1
          · exact hP q hmem s' hsq
      · have ht1 : ¬ typeOf st1 s.val = newType := by
          rw [H2 s.val (hsval p s hs)]
          exact ht
        obtain ⟨st2, hstep, hev2, hni2, hfb2, hty2, hself2⟩ :=
          extract_step_all st1 b idx f newType p s (by rw [hslot1]; exact hs) ht1
        rw [hstep]
        have H4' : ∀ q ∈ ps, findBlock st2 q = findBlock st q := by
          intro q hq
          have hqp : q ≠ p := fun hc => hp_notin (hc ▸ hq)
          rw [hfb2 q hqp]
          exact H4 q (List.mem_cons_of_mem p hq)
        have H2' : ∀ v, v < st.nextId → typeOf st2 v = typeOf st v := by
          intro v hv
          rw [hty2 v (by omega)]
          exact H2 v hv
        have H3' : st.nextId ≤ st2.nextId := by omega
        obtain ⟨hE, hF, hP⟩ := ih hnd' st2 H4' H2' H3'
        refine ⟨?_, ?_, ?_⟩
        · rw [hE, hev2, hni2, extractEvsFor_cons, hs]
          dsimp only
          rw [if_neg ht, List.append_assoc]
          rfl
        · intro q hq
          have hqp : q ≠ p := fun hc => hq (hc ▸ List.mem_cons_self p ps)
          rw [hF q (fun hc => hq (List.mem_cons_of_mem p hc))]
          exact hfb2 q hqp
        · intro q hq s' hsq
          rcases List.mem_cons.mp hq with heq | hmem
          · subst heq
            rw [hs] at hsq
            have hss : s' = s := (Option.some.inj hsq).symm
            subst hss
            refine ⟨fun hc => absurd hc ht, fun _ => ?_⟩
            obtain ⟨pb, hpb, hsl⟩ := incomingSlot_findBlock st q b idx s' hs
            refine ⟨pb, hpb, st1.nextId, ?_⟩
            rw [hF q hp_notin]
            exact hself2 pb (by rw [hfb1]; exact hpb)
          · exact hP q hmem s' hsq

/-- C5: pushing the extraction to the predecessors treats every incoming
phi operand of the replaced argument edge by edge: an operand whose value
already has the field type is left unchanged (its predecessor block is
untouched), and an operand of aggregate type gets exactly one new
struct_extract of the required field appended immediately before the
supplying terminator, with the operand rewired to that extraction; the
event log records exactly one extraction per mismatched edge. -/
theorem push_extracts_per_edge (st : IRState) (b idx f newType : Nat) (hwf : wfIds st) :
    (pushExtractsToPreds st b idx f newType).events =
      st.events ++ extractEvsFor st b idx f newType (predsList st b) st.nextId ∧
    ∀ p ∈ predsList st b, ∀ s, incomingSlot st p b idx = some s →
      (typeOf st s.val = newType →
        incomingSlot (pushExtractsToPreds st b idx f newType) p b idx = some s ∧
        findBlock (pushExtractsToPreds st b idx f newType) p = findBlock st p) ∧
      (typeOf st s.val ≠ newType →
        ∃ pb, findBlock st p = some pb ∧
          ∃ n, incomingSlot (pushExtractsToPreds st b idx f newType) p b idx =
              some { val := n, ltEnd := s.ltEnd } ∧
            findBlock (pushExtractsToPreds st b idx f newType) p =
              some { pb with
                insts := pb.insts ++ [pushedExtractInst n f newType s.val]
                term := pb.term.setSlotTo b idx n }) := by
  have hsval : ∀ p s, incomingSlot st p b idx = some s → s.val < st.nextId :=
    fun p s hps => hwf.2.2.2 s.val (slotVal_mem_allRefIds st p b idx s hps)
  have hnd : (predsList st b).Nodup := by
    unfold predsList
    exact hwf.2.1.sublist (List.Sublist.map (fun blk => blk.id)
      (List.filter_sublist st.blocks))
  obtain ⟨hE, hF, hP⟩ := extractFold_spec st b idx f newType hsval (predsList st b) hnd st
    (fun q _ => rfl) (fun v _ => rfl) (Nat.le_refl _)
  refine ⟨hE, ?_⟩
  intro p hp s hs
  obtain ⟨hmatch, hmis⟩ := hP p hp s hs
  refine ⟨fun ht => ?_, fun ht => ?_⟩
  · have hfb := hmatch ht
    refine ⟨?_, hfb⟩
    show incomingSlot (pushExtractsToPreds st b idx f newType) p b idx = some s
    unfold incomingSlot
    unfold pushExtractsToPreds
    rw [hfb]
    obtain ⟨pb, hpb, hsl⟩ := incomingSlot_findBlock st p b idx s hs
    rw [hpb]
    simpa using hsl
  · obtain ⟨pb, hpb, n, hfb⟩ := hmis ht
    refine ⟨pb, hpb, n, ?_, hfb⟩
    obtain ⟨pb', hpb', hsl⟩ := incomingSlot_findBlock st p b idx s hs
    have hpbe : pb = pb' := by
      rw [hpb] at hpb'
      exact Option.some.inj hpb'
    subst hpbe
    show incomingSlot (pushExtractsToPreds st b idx f newType) p b idx = _
    unfold incomingSlot
    unfold pushExtractsToPreds
    rw [hfb]
    simp only [Option.some_bind]
    show (({ pb with
      insts := pb.insts ++ [pushedExtractInst n f newType s.val]
      term := pb.term.setSlotTo b idx n } : Block).term.slotsTo b)[idx]? = _
    rw [show ({ pb with
      insts := pb.insts ++ [pushedExtractInst n f newType s.val]
      term := pb.term.setSlotTo b idx n } : Block).term = pb.term.setSlotTo b idx n from rfl]
    rw [slotsTo_setSlotTo]
    exact setSlotVal_getElem (pb.term.slotsTo b) idx n s hsl

/-- Witness for C5 at a concrete input: a two-predecessor block where one
edge already supplies the field type and the other supplies the
aggregate. -/
theorem push_extracts_per_edge_witness :
    (pushExtractsToPreds exSingleField 2 0 3 9).events =
      exSingleField.events ++
        extractEvsFor exSingleField 2 0 3 9 (predsList exSingleField 2) exSingleField.nextId ∧
    ∀ p ∈ predsList exSingleField 2, ∀ s, incomingSlot exSingleField p 2 0 = some s →
      (typeOf exSingleField s.val = 9 →
        incomingSlot (pushExtractsToPreds exSingleField 2 0 3 9) p 2 0 = some s ∧
        findBlock (pushExtractsToPreds exSingleField 2 0 3 9) p = findBlock exSingleField p) ∧
      (typeOf exSingleField s.val ≠ 9 →
        ∃ pb, findBlock exSingleField p = some pb ∧
          ∃ n, incomingSlot (pushExtractsToPreds exSingleField 2 0 3 9) p 2 0 =
              some { val := n, ltEnd := s.ltEnd } ∧
            findBlock (pushExtractsToPreds exSingleField 2 0 3 9) p =
              some { pb with
                insts := pb.insts ++ [pushedExtractInst n 3 9 s.val]
                term := pb.term.setSlotTo 2 0 n }) :=
  push_extracts_per_edge exSingleField 2 0 3 9 (by decide)

end PhiOpt
